import Mathlib

/-!
# Block-wise image writing: `src/vw/Image/ImageIO.h`

A shallow embedding of `CountingSemaphore`, `ThreadedBlockWriter`,
`block_write_image` and `write_image`, followed by the properties proved
about them.

Conventions of the embedding.

* `int32` / `int` values are mathematical integers (`Int`); the C++ integer
  division is `Int.tdiv` (truncation towards zero).  Signed overflow is
  undefined in the source language and is not modelled.  A division by zero
  is undefined there as well; `Int.tdiv` gives it the quotient 0.
* `float` is IEEE-754 binary32 with round-to-nearest-even; only the finite
  values reachable from `int32` operands are represented (`Float32`).
* The collaborators (`ImageResource`, the image view, `ProgressCallback`)
  are observed through the calls the drivers make on them, recorded in
  order as a list of `Event`s.  The answers of `abort_requested()` are
  given by a function from the number of the query to `Bool`.
* A `for` loop is a recursive function with a fuel argument that bounds the
  number of loop tests; `none` means the fuel ran out.
* The condition variable is modelled by atomic steps of a transition system
  (`GateOp`, `WriterOp`); spurious wake-ups are not modelled.
-/

namespace vw

/-! ## Geometry -/

/-- Two `int32` coordinates (`Vector2i`). -/
structure Vector2i where
  x : Int
  y : Int
deriving DecidableEq, Repr

/-- Axis-aligned box `BBox2i(min, max)`: `min` inclusive, `max` exclusive. -/
structure BBox2i where
  min : Vector2i
  max : Vector2i
deriving DecidableEq, Repr

/-- Extent of a box in x. -/
def BBox2i.width (b : BBox2i) : Int := b.max.x - b.min.x

/-- Extent of a box in y. -/
def BBox2i.height (b : BBox2i) : Int := b.max.y - b.min.y

/-- Pixel membership in the half-open box. -/
def BBox2i.contains (b : BBox2i) (x y : Int) : Bool :=
  decide (b.min.x ≤ x) && decide (x < b.max.x) && decide (b.min.y ≤ y) && decide (y < b.max.y)

/-! ## IEEE-754 binary32, as far as `block_write_image` uses it -/

/-- Number of binary digits of `n`, for `n < 2 ^ fuel`. -/
def bitLength (fuel n : Nat) : Nat :=
  match fuel with
  | 0 => 0
  | fuel + 1 => if n = 0 then 0 else bitLength fuel (n / 2) + 1

/-- Nearest natural number to `num / den`, ties to the even one. -/
def roundHalfEven (num den : Nat) : Nat :=
  if 2 * (num % den) < den then num / den
  else if den < 2 * (num % den) then num / den + 1
  else if (num / den) % 2 = 0 then num / den
  else num / den + 1

/-- A finite binary32 value `(-1)^neg * mant * 2^exp`. -/
structure Float32 where
  neg : Bool
  mant : Nat
  exp : Int
deriving DecidableEq, Repr

/-- The binary32 value nearest to `num / den` (24 significant bits, ties to
even).  The exponent range is not modelled: the operands here are `int32`
values and quotients of two of them, far from overflow and underflow. -/
def Float32.ofRatio (neg : Bool) (num den : Nat) : Float32 :=
  if num = 0 then ⟨neg, 0, 0⟩
  else
    -- `num / den` lies strictly between `2 ^ (e0 - 1)` and `2 ^ (e0 + 1)`
    let e0 : Int := (bitLength 64 num : Int) - (bitLength 64 den : Int)
    let k : Int := 24 - e0
    let n1 : Nat := if 0 ≤ k then num * 2 ^ k.toNat else num
    let d1 : Nat := if 0 ≤ k then den else den * 2 ^ (-k).toNat
    -- `n1 / d1 = (num / den) * 2 ^ k` lies strictly between `2 ^ 23` and `2 ^ 25`
    if 2 ^ 24 * d1 ≤ n1 then ⟨neg, roundHalfEven n1 (2 * d1), 1 - k⟩
    else ⟨neg, roundHalfEven n1 d1, -k⟩

/-- Conversion `float(n)` of an integer. -/
def Float32.ofInt (n : Int) : Float32 :=
  Float32.ofRatio (decide (n < 0)) n.natAbs 1

/-- Division `a / b` of two binary32 values, for `b` nonzero.  A quotient by
zero is an infinity or a NaN, whose conversion to `int` is undefined in the
source language; it is not represented. -/
def Float32.div (a b : Float32) : Float32 :=
  Float32.ofRatio (xor a.neg b.neg)
    (a.mant * 2 ^ (a.exp - b.exp).toNat) (b.mant * 2 ^ (b.exp - a.exp).toNat)

/-- Computes `int(ceil(f))`. -/
def Float32.ceilToInt (f : Float32) : Int :=
  if 0 ≤ f.exp then
    (if f.neg then -1 else 1) * ((f.mant * 2 ^ f.exp.toNat : Nat) : Int)
  else if f.neg then
    -((f.mant / 2 ^ (-f.exp).toNat : Nat) : Int)
  else
    (((f.mant + 2 ^ (-f.exp).toNat - 1) / 2 ^ (-f.exp).toNat : Nat) : Int)

/-! ## Collaborators and events -/

/-- What the drivers read from the destination `ImageResource`. -/
structure ImageResource where
  cols : Int
  rows : Int
  block_size : Vector2i
deriving DecidableEq, Repr

/-- What the drivers read from the image view. -/
structure ImageShape where
  cols : Int
  rows : Int
  planes : Int
deriving DecidableEq, Repr

/-- Calls made by the drivers on their collaborators, in program order.
`report_progress num den` reports the quotient `num / den`; `write bbox`
is `resource.write(crop(image, bbox).buffer(), bbox)`. -/
inductive Event where
  | report_progress (num den : Int)
  | abort_requested (answer : Bool)
  | add_block (bbox : BBox2i) (index : Int) (total_num_blocks : Int)
  | process_blocks
  | write (bbox : BBox2i)
  | report_finished
deriving DecidableEq, Repr

/-- Exceptions raised by the drivers themselves. -/
inductive Exception where
  | ArgumentErr
  | Aborted
deriving DecidableEq, Repr

/-- How a driver run ends. -/
inductive Outcome where
  | returned
  | threw (e : Exception)
  | out_of_fuel
deriving DecidableEq, Repr

/-- The rasterize task created by `add_block`. -/
structure Block where
  bbox : BBox2i
  index : Int
deriving DecidableEq, Repr

/-- The block of an `add_block` event. -/
def Event.block? : Event → Option Block
  | .add_block bbox index _ => some ⟨bbox, index⟩
  | _ => none

/-- The `total_num_blocks` argument of an `add_block` event. -/
def Event.total? : Event → Option Int
  | .add_block _ _ total => some total
  | _ => none

/-- The box of a `write` event. -/
def Event.write? : Event → Option BBox2i
  | .write bbox => some bbox
  | _ => none

/-- The progress report of an event. -/
def Event.progress? : Event → Option (Int × Int)
  | .report_progress num den => some (num, den)
  | _ => none

/-- Whether the event is an abort query. -/
def Event.isAbortQuery : Event → Bool
  | .abort_requested _ => true
  | _ => false

/-- Blocks submitted in a trace, in order. -/
def submitted (trace : List Event) : List Block := trace.filterMap Event.block?

/-- Resource writes in a trace, in order. -/
def written (trace : List Event) : List BBox2i := trace.filterMap Event.write?

/-- Progress values reported in a trace, in order. -/
def progress (trace : List Event) : List (Int × Int) := trace.filterMap Event.progress?

/-! ## `block_write_image` -/

/-- The box of the loop body (lines 258-260). -/
def current_bbox (resource : ImageResource) (block_size : Vector2i) (i j : Int) : BBox2i :=
  ⟨⟨i, j⟩, ⟨min (i + block_size.x) resource.cols, min (j + block_size.y) resource.rows⟩⟩

/-- Line 265: `int( ceil(float(resource.cols())/float(block_size.x())) )`. -/
def col_blocks (resource : ImageResource) (block_size : Vector2i) : Int :=
  (Float32.div (Float32.ofInt resource.cols) (Float32.ofInt block_size.x)).ceilToInt

/-- Lines 265-268: the index given to the block at `(i, j)`. -/
def block_index (resource : ImageResource) (block_size : Vector2i) (i j : Int) : Int :=
  (j.tdiv block_size.y) * col_blocks resource block_size + i.tdiv block_size.x

/-- Lines 251 and 295: `total_num_blocks`. -/
def total_blocks (resource : ImageResource) (block_size : Vector2i) : Int :=
  ((resource.rows - 1).tdiv block_size.y + 1) * ((resource.cols - 1).tdiv block_size.x + 1)

/-- Inner loop of `block_write_image` (lines 255-272), started at column `i`. -/
def block_write_image.cols_loop (fuel : Nat) (resource : ImageResource) (block_size : Vector2i)
    (total_num_blocks : Int) (j i : Int) (trace : List Event) : Option (List Event) :=
  match fuel with
  | 0 => none
  | fuel + 1 =>
    if i < resource.cols then
      block_write_image.cols_loop fuel resource block_size total_num_blocks j (i + block_size.x)
        (trace ++ [Event.add_block (current_bbox resource block_size i j)
          (block_index resource block_size i j) total_num_blocks])
    else some trace

/-- Outer loop of `block_write_image` (lines 254-273), started at row `j`;
every run of the inner loop gets the fuel `inner`. -/
def block_write_image.rows_loop (fuel inner : Nat) (resource : ImageResource)
    (block_size : Vector2i) (total_num_blocks : Int) (j : Int) (trace : List Event) :
    Option (List Event) :=
  match fuel with
  | 0 => none
  | fuel + 1 =>
    if j < resource.rows then
      match block_write_image.cols_loop inner resource block_size total_num_blocks j 0 trace with
      | none => none
      | some trace1 =>
        block_write_image.rows_loop fuel inner resource block_size total_num_blocks
          (j + block_size.y) trace1
    else some trace

/-- The threaded driver `block_write_image` (lines 231-278).  `abort n` is the
answer of the `n`-th call of `abort_requested()`. -/
def block_write_image (fuel : Nat) (resource : ImageResource) (image : ImageShape)
    (abort : Nat → Bool) : List Event × Outcome :=
  if image.cols ≠ 0 ∧ image.rows ≠ 0 ∧ image.planes ≠ 0 then
    let trace0 := [Event.report_progress 0 1, Event.abort_requested (abort 0)]
    if abort 0 then (trace0, Outcome.threw Exception.Aborted)
    else
      let block_size := resource.block_size
      match block_write_image.rows_loop fuel fuel resource block_size
          (total_blocks resource block_size) 0 trace0 with
      | none => (trace0, Outcome.out_of_fuel)
      | some trace1 => (trace1 ++ [Event.process_blocks, Event.report_finished], Outcome.returned)
  else ([], Outcome.threw Exception.ArgumentErr)

/-- Lines 250-273 on their own: the blocks submitted by the loop nest of
`block_write_image`, in order. -/
def block_write_image.blocks (fuel : Nat) (resource : ImageResource) : Option (List Block) :=
  (block_write_image.rows_loop fuel fuel resource resource.block_size
    (total_blocks resource resource.block_size) 0 []).map submitted

/-- Lines 250-273 on their own: the `total_num_blocks` values handed to the
submitted tasks, in order. -/
def block_write_image.totals (fuel : Nat) (resource : ImageResource) : Option (List Int) :=
  (block_write_image.rows_loop fuel fuel resource resource.block_size
    (total_blocks resource resource.block_size) 0 []).map (List.filterMap Event.total?)

/-! ## The block grid in closed form (used to state and prove properties) -/

/-- Number of block columns of the grid, `(cols - 1) / block_size.x + 1`. -/
def num_cols (resource : ImageResource) (block_size : Vector2i) : Nat :=
  ((resource.cols - 1).tdiv block_size.x + 1).toNat

/-- Number of block rows of the grid, `(rows - 1) / block_size.y + 1`. -/
def num_rows (resource : ImageResource) (block_size : Vector2i) : Nat :=
  ((resource.rows - 1).tdiv block_size.y + 1).toNat

/-- The `add_block` call of the loop body at `(i, j)`. -/
def add_block_at (resource : ImageResource) (block_size : Vector2i) (total_num_blocks : Int)
    (i j : Int) : Event :=
  Event.add_block (current_bbox resource block_size i j) (block_index resource block_size i j)
    total_num_blocks

/-- Block row `r` of the grid, as `add_block` calls. -/
def grid_row (resource : ImageResource) (block_size : Vector2i) (total : Int) (r : Nat) :
    List Event :=
  (List.range (num_cols resource block_size)).map
    (fun (c : Nat) =>
      add_block_at resource block_size total ((c : Int) * block_size.x) ((r : Int) * block_size.y))

/-- The block of the `k`-th loop iteration (rows outer, columns inner). -/
def grid_block (resource : ImageResource) (k : Nat) : Block :=
  ⟨current_bbox resource resource.block_size
      (((k % num_cols resource resource.block_size : Nat) : Int) * resource.block_size.x)
      (((k / num_cols resource resource.block_size : Nat) : Int) * resource.block_size.y),
    block_index resource resource.block_size
      (((k % num_cols resource resource.block_size : Nat) : Int) * resource.block_size.x)
      (((k / num_cols resource resource.block_size : Nat) : Int) * resource.block_size.y)⟩

/-! ## `CountingSemaphore` -/

/-- The three counters of `CountingSemaphore` (lines 87-89). -/
structure CountingSemaphore where
  m_max : Int
  m_count : Int
  m_last_job_index : Int
deriving DecidableEq, Repr

/-- Constructor `CountingSemaphore( void )`. -/
def CountingSemaphore.new : CountingSemaphore := ⟨1, 0, 0⟩

/-- Constructor `CountingSemaphore( int max )`. -/
def CountingSemaphore.ofMax (max : Int) : CountingSemaphore := ⟨max, 0, 0⟩

/-- Method `set_max`. -/
def CountingSemaphore.set_max (s : CountingSemaphore) (max : Int) : CountingSemaphore :=
  { s with m_max := max }

/-- The test of `wait` (lines 104-105): whether the caller suspends on the
condition variable. -/
def CountingSemaphore.wait_suspends (s : CountingSemaphore) (job_index : Int) : Bool :=
  decide (s.m_count > s.m_max) && decide (job_index > s.m_last_job_index)

/-- The last statement of `wait` (line 108). -/
def CountingSemaphore.wait_finish (s : CountingSemaphore) (job_index : Int) :
    CountingSemaphore :=
  { s with m_last_job_index := job_index }

/-- Method `wait` as one call.  A caller that suspends releases the lock, and
other callers may change the counters before it is woken: `resumed` is the
state it finds then.  The result is whether the caller suspended, and the
state when `wait` returns. -/
def CountingSemaphore.wait (s : CountingSemaphore) (job_index : Int)
    (resumed : CountingSemaphore) : Bool × CountingSemaphore :=
  if s.wait_suspends job_index then (true, resumed.wait_finish job_index)
  else (false, s.wait_finish job_index)

/-- Method `enter`. -/
def CountingSemaphore.enter (s : CountingSemaphore) : CountingSemaphore :=
  { s with m_count := s.m_count + 1 }

/-- Method `release`, on the counters (its `notify_all` is in `Gate.step`). -/
def CountingSemaphore.release (s : CountingSemaphore) : CountingSemaphore :=
  { s with m_count := s.m_count - 1 }

/-- Method `WriteBlockTask::operator()` (lines 155-158): `write_result` is
what `m_resource.write` does, return or raise; an exception leaves the
method before line 157. -/
def WriteBlockTask.call {ε : Type} (write_result : Except ε Unit) (sem : CountingSemaphore) :
    Except ε Unit × CountingSemaphore :=
  match write_result with
  | .error e => (.error e, sem)
  | .ok _ => (.ok (), sem.release)

/-- Number of `release()` calls made by `WriteBlockTask::operator()`. -/
def WriteBlockTask.releases {ε : Type} (write_result : Except ε Unit) : Nat :=
  match write_result with
  | .error _ => 0
  | .ok _ => 1

/-! ## The gate as a transition system

Callers (the rasterize tasks) go through `wait`, `enter` and, by their write
task, `release`.  Each step below is atomic. -/

/-- How a caller came through `wait`: `direct` with `m_count <= m_max` and no
other caller between `wait` and `enter`; `raced` with `m_count <= m_max`
while another caller was between `wait` and `enter`; `bypass` with
`m_count > m_max` and `job_index <= m_last_job_index`; `woken` after having
been suspended. -/
inductive Passage where
  | direct
  | raced
  | bypass
  | woken
deriving DecidableEq, Repr

/-- Where a caller is. -/
inductive Caller where
  | idle
  | suspended (job_index : Int) (notified : Bool)
  | cleared (how : Passage)
  | in_flight (how : Passage)
  | released
deriving DecidableEq, Repr

/-- Whether the caller is between `wait` and `enter`. -/
def Caller.isCleared : Caller → Bool
  | .cleared _ => true
  | _ => false

/-- Whether the caller is in flight, having come through `wait` in a way
that satisfies `p`. -/
def Caller.inFlightBy (p : Passage → Bool) : Caller → Bool
  | .in_flight how => p how
  | _ => false

/-- Whether the caller is between `wait` and `enter`, having come through
`wait` in a way that satisfies `p`. -/
def Caller.clearedBy (p : Passage → Bool) : Caller → Bool
  | .cleared how => p how
  | _ => false

/-- Effect of `notify_all` on a caller. -/
def Caller.notify : Caller → Caller
  | .suspended job_index _ => .suspended job_index true
  | c => c

/-- The counters seen by a return from `wait`. -/
structure WaitReturn where
  job_index : Int
  count : Int
  max : Int
  last_before : Int
  was_suspended : Bool
deriving DecidableEq, Repr

/-- The gate with its callers, and the record of the returns from `wait`. -/
structure Gate where
  sem : CountingSemaphore
  callers : List Caller
  returns : List WaitReturn
deriving DecidableEq, Repr

/-- A new gate with limit `max` and `n` callers that have not called yet. -/
def Gate.fresh (max : Int) (n : Nat) : Gate :=
  ⟨CountingSemaphore.ofMax max, List.replicate n Caller.idle, []⟩

/-- Atomic steps: caller `t` calls `wait(job_index)` and runs its test; a
suspended and notified caller `t` resumes and returns from `wait`; caller `t`
calls `enter()`; `release()` is called for caller `t`. -/
inductive GateOp where
  | wait (t : Nat) (job_index : Int)
  | wake (t : Nat)
  | enter (t : Nat)
  | release (t : Nat)
deriving DecidableEq, Repr

/-- Whether the step is a `release`. -/
def GateOp.isRelease : GateOp → Bool
  | .release _ => true
  | _ => false

/-- One step of the gate; `none` when the caller is not at that point. -/
def Gate.step (g : Gate) : GateOp → Option Gate
  | .wait t job_index =>
    match g.callers[t]? with
    | some .idle =>
      if g.sem.wait_suspends job_index then
        some { g with callers := g.callers.set t (.suspended job_index false) }
      else
        some
          { sem := g.sem.wait_finish job_index
            callers := g.callers.set t
              (.cleared
                (if g.sem.m_count ≤ g.sem.m_max then
                  (if g.callers.any Caller.isCleared then .raced else .direct)
                else .bypass))
            returns := g.returns ++
              [⟨job_index, g.sem.m_count, g.sem.m_max, g.sem.m_last_job_index, false⟩] }
    | _ => none
  | .wake t =>
    match g.callers[t]? with
    | some (.suspended job_index true) =>
      some
        { sem := g.sem.wait_finish job_index
          callers := g.callers.set t (.cleared .woken)
          returns := g.returns ++
            [⟨job_index, g.sem.m_count, g.sem.m_max, g.sem.m_last_job_index, true⟩] }
    | _ => none
  | .enter t =>
    match g.callers[t]? with
    | some (.cleared how) =>
      some { g with sem := g.sem.enter, callers := g.callers.set t (.in_flight how) }
    | _ => none
  | .release t =>
    match g.callers[t]? with
    | some (.in_flight _) =>
      some
        { g with
          sem := g.sem.release
          callers := (g.callers.set t .released).map Caller.notify }
    | _ => none

/-- A sequence of steps. -/
def Gate.run (g : Gate) : List GateOp → Option Gate
  | [] => some g
  | op :: ops =>
    match g.step op with
    | none => none
    | some g1 => g1.run ops

/-- Number of in-flight callers whose passage satisfies `p`. -/
def Gate.inFlight (g : Gate) (p : Passage → Bool) : Nat :=
  g.callers.countP (Caller.inFlightBy p)

/-- The accounting kept by every step of a gate whose limit is `M`: the limit
does not change, `m_count` is the number of callers in flight, and at most
`M + 1` callers that came through directly are in flight or about to enter. -/
def Gate.Accounted (M : Int) (g : Gate) : Prop :=
  g.sem.m_max = M ∧
  g.sem.m_count = (List.countP (Caller.inFlightBy (fun _ => true)) g.callers : Nat) ∧
  ((List.countP (Caller.inFlightBy (fun how => decide (how = Passage.direct))) g.callers +
    List.countP (Caller.clearedBy (fun how => decide (how = Passage.direct))) g.callers : Nat) :
      Int) ≤ M + 1

/-- Whether the step `op`, taken in the state `g`, is a return of caller `t`
from `wait` of the kind `how`, judged on the counters of `g` alone.  A call
`wait(job_index)` is a `direct` return when `m_count <= m_max` and no caller
is between `wait` and `enter`, a `raced` return when `m_count <= m_max` and
some caller is, a `bypass` return when `m_count > m_max` and
`job_index <= m_last_job_index`; a resumption is a `woken` return when the
caller is suspended and has been notified. -/
def Passage.justified (how : Passage) (t : Nat) (g : Gate) : GateOp → Bool
  | .wait t1 job_index =>
    decide (t1 = t) &&
      (match how with
       | .direct => decide (g.sem.m_count ≤ g.sem.m_max) && !(g.callers.any Caller.isCleared)
       | .raced => decide (g.sem.m_count ≤ g.sem.m_max) && g.callers.any Caller.isCleared
       | .bypass =>
         decide (g.sem.m_count > g.sem.m_max) && decide (job_index ≤ g.sem.m_last_job_index)
       | .woken => false)
  | .wake t1 =>
    decide (t1 = t) && decide (how = .woken) &&
      (match g.callers[t]? with
       | some (.suspended _ true) => true
       | _ => false)
  | _ => false

/-- In the run `ops` of a new gate, caller `t` called `wait(job_index)` in a
state where the test of lines 104-105 was true, so that it suspended; when
`notified` is set, a `release()` follows that call in the run. -/
def Gate.WasSuspended (M : Int) (n : Nat) (ops : List GateOp) (t : Nat) (job_index : Int)
    (notified : Bool) : Prop :=
  ∃ ops1 ops2 g0, ops = ops1 ++ GateOp.wait t job_index :: ops2 ∧
    Gate.run (Gate.fresh M n) ops1 = some g0 ∧
    g0.sem.wait_suspends job_index = true ∧
    (notified = true → ∃ t1, GateOp.release t1 ∈ ops2)

/-- In the run `ops` of a new gate, caller `t` returned from `wait` by a step
that is of the kind `how` on the counters of the state it was taken in; a
`woken` caller had suspended in `wait` before, and a `release()` lies between
its suspension and its return. -/
def Gate.CameThrough (M : Int) (n : Nat) (ops : List GateOp) (t : Nat) (how : Passage) :
    Prop :=
  ∃ ops1 op ops2 g0, ops = ops1 ++ op :: ops2 ∧
    Gate.run (Gate.fresh M n) ops1 = some g0 ∧
    how.justified t g0 op = true ∧
    (how = Passage.woken → ∃ job_index, Gate.WasSuspended M n ops1 t job_index true)

/-- The history kept by every run of a new gate: each suspended caller called
`wait` in a state where the test was true (and is notified only after a
`release()`), and each caller between `wait` and `enter` or in flight returned
from `wait` in the way its label says. -/
def Gate.Recorded (M : Int) (n : Nat) (ops : List GateOp) (g : Gate) : Prop :=
  (∀ t job_index notified, g.callers[t]? = some (.suspended job_index notified) →
    Gate.WasSuspended M n ops t job_index notified) ∧
  (∀ t how, (g.callers[t]? = some (.cleared how) ∨ g.callers[t]? = some (.in_flight how)) →
    Gate.CameThrough M n ops t how)

/-! ## `ThreadedBlockWriter` -/

/-- Modelled from the spec: `OrderedWorkQueue` of `vw/Core/ThreadPool.h`, which
is not among the sources (spec section 4.5).  It has one worker; tasks are
added with an index; the worker runs the task whose index is `next_index`,
counted from 0, and holds every other task pending until its turn.  An entry
is the position of the rasterize task that added the write task, and the
index. -/
structure OrderedWorkQueue where
  pending : List (Nat × Int)
  next_index : Int
deriving DecidableEq, Repr

/-- Modelled from the spec: the empty `OrderedWorkQueue`. -/
def OrderedWorkQueue.new : OrderedWorkQueue := ⟨[], 0⟩

/-- Modelled from the spec: `OrderedWorkQueue::add_task(task, index)`. -/
def OrderedWorkQueue.add_task (q : OrderedWorkQueue) (task : Nat) (index : Int) :
    OrderedWorkQueue :=
  { q with pending := q.pending ++ [(task, index)] }

/-- Modelled from the spec: the task the worker of the `OrderedWorkQueue` runs
next, if it has arrived. -/
def OrderedWorkQueue.next_task (q : OrderedWorkQueue) : Option (Nat × Int) :=
  q.pending.find? (fun e => e.2 == q.next_index)

/-- The list without the first occurrence of `e`. -/
def remove_first (e : Nat × Int) : List (Nat × Int) → List (Nat × Int)
  | [] => []
  | x :: xs => if x = e then xs else x :: remove_first e xs

/-- Modelled from the spec: the `OrderedWorkQueue` after its worker has run the
entry `e`. -/
def OrderedWorkQueue.finish (q : OrderedWorkQueue) (e : Nat × Int) : OrderedWorkQueue :=
  ⟨remove_first e q.pending, q.next_index + 1⟩

/-- The `ThreadedBlockWriter` while `process_blocks` runs: the rasterize tasks
in the order of `add_block` (the callers of the gate, by position), the gate
`m_write_queue_limit`, the write queue, the rasterize tasks that have added
their write task, and the rasterize tasks whose block has been written to
the resource, in the order of the writes. -/
structure ThreadedBlockWriter where
  tasks : List Block
  m_write_queue_limit : Gate
  m_write_work_queue : OrderedWorkQueue
  added : List Nat
  writes : List Nat
deriving DecidableEq, Repr

/-- Constructor of `ThreadedBlockWriter` (lines 206-210) followed by the
`add_block` calls; `num_threads` is `vw_settings().default_num_threads()`. -/
def ThreadedBlockWriter.new (num_threads : Int) (tasks : List Block) : ThreadedBlockWriter :=
  ⟨tasks, ⟨CountingSemaphore.new.set_max num_threads, List.replicate tasks.length Caller.idle, []⟩,
    OrderedWorkQueue.new, [], []⟩

/-- Atomic steps of the threads.  Modelled from the spec: any rasterize task
may take its next step at any time (`FifoWorkQueue`, spec section 4.4:
tasks complete in any order).  `rasterized t`: task `t` has rasterized its
block and calls `wait(m_index)` (lines 186-194); `wake t`: it resumes from a
suspension in `wait`; `enter t`: line 195; `add_write_task t`: line 196;
`write`: the worker of the write queue runs the next `WriteBlockTask`
(lines 156-157). -/
inductive WriterOp where
  | rasterized (t : Nat)
  | wake (t : Nat)
  | enter (t : Nat)
  | add_write_task (t : Nat)
  | write
deriving DecidableEq, Repr

/-- One step of the threads of a `ThreadedBlockWriter`; `none` when the step
is not possible. -/
def ThreadedBlockWriter.step (w : ThreadedBlockWriter) : WriterOp → Option ThreadedBlockWriter
  | .rasterized t =>
    match w.tasks[t]? with
    | some b =>
      (w.m_write_queue_limit.step (.wait t b.index)).map
        (fun g => { w with m_write_queue_limit := g })
    | none => none
  | .wake t =>
    (w.m_write_queue_limit.step (.wake t)).map (fun g => { w with m_write_queue_limit := g })
  | .enter t =>
    (w.m_write_queue_limit.step (.enter t)).map (fun g => { w with m_write_queue_limit := g })
  | .add_write_task t =>
    match w.tasks[t]?, w.m_write_queue_limit.callers[t]? with
    | some b, some (.in_flight _) =>
      if t ∈ w.added then none
      else
        some { w with
          m_write_work_queue := w.m_write_work_queue.add_task t b.index
          added := w.added ++ [t] }
    | _, _ => none
  | .write =>
    match w.m_write_work_queue.next_task with
    | some e =>
      (w.m_write_queue_limit.step (.release e.1)).map
        (fun g =>
          { w with
            m_write_queue_limit := g
            m_write_work_queue := w.m_write_work_queue.finish e
            writes := w.writes ++ [e.1] })
    | none => none

/-- A sequence of steps of the threads. -/
def ThreadedBlockWriter.run (w : ThreadedBlockWriter) : List WriterOp → Option ThreadedBlockWriter
  | [] => some w
  | op :: ops =>
    match w.step op with
    | none => none
    | some w1 => w1.run ops

/-- The blocks written to the resource, in the order of the writes. -/
def ThreadedBlockWriter.written (w : ThreadedBlockWriter) : List Block :=
  w.writes.filterMap (fun t => w.tasks[t]?)

/-- The bookkeeping kept by every step of a `ThreadedBlockWriter` made for
`tasks`: the rasterize tasks that have added a write task are distinct
positions of `tasks`; each of them is either written or pending; a pending
entry carries the index of its task; and the writes done so far are those of
the indices `0, 1, ...` in this order, `next_index` being their number. -/
def ThreadedBlockWriter.Consistent (tasks : List Block) (w : ThreadedBlockWriter) : Prop :=
  w.tasks = tasks ∧
  w.added.Nodup ∧
  (∀ t ∈ w.added, t < tasks.length) ∧
  (w.writes ++ w.m_write_work_queue.pending.map Prod.fst).Perm w.added ∧
  (∀ e ∈ w.m_write_work_queue.pending, (tasks[e.1]?).map Block.index = some e.2) ∧
  w.m_write_work_queue.next_index = (w.writes.length : Int) ∧
  w.writes.map (fun t => (tasks[t]?).map Block.index) =
    (List.range w.writes.length).map (fun (i : Nat) => some (i : Int))

/-! ## `write_image` -/

/-- Inner loop of `write_image` (lines 297-318), started at column `i` with
`queries` calls of `abort_requested()` made so far.  An early end gives the
final trace and outcome.  Of the progress value only the exact operands are
recorded: the sum of the two block counts of lines 303-304 and
`total_num_blocks`. -/
def write_image.cols_loop (fuel : Nat) (resource : ImageResource) (block_size : Vector2i)
    (total_num_blocks : Int) (abort : Nat → Bool) (j i : Int) (trace : List Event)
    (queries : Nat) : Except (List Event × Outcome) (List Event × Nat) :=
  match fuel with
  | 0 => .error (trace, Outcome.out_of_fuel)
  | fuel + 1 =>
    if i < resource.cols then
      if abort queries then
        .error (trace ++ [Event.abort_requested true], Outcome.threw Exception.Aborted)
      else
        write_image.cols_loop fuel resource block_size total_num_blocks abort j
          (i + block_size.x)
          (trace ++
            [Event.abort_requested false,
             Event.report_progress
              (j.tdiv block_size.y * ((resource.cols - 1).tdiv block_size.x + 1) +
                i.tdiv block_size.x)
              total_num_blocks,
             Event.write (current_bbox resource block_size i j)])
          (queries + 1)
    else .ok (trace, queries)

/-- Outer loop of `write_image` (lines 296-319), started at row `j`; every run
of the inner loop gets the fuel `inner`. -/
def write_image.rows_loop (fuel inner : Nat) (resource : ImageResource) (block_size : Vector2i)
    (total_num_blocks : Int) (abort : Nat → Bool) (j : Int) (trace : List Event)
    (queries : Nat) : Except (List Event × Outcome) (List Event × Nat) :=
  match fuel with
  | 0 => .error (trace, Outcome.out_of_fuel)
  | fuel + 1 =>
    if j < resource.rows then
      match write_image.cols_loop inner resource block_size total_num_blocks abort j 0 trace
          queries with
      | .error r => .error r
      | .ok (trace1, queries1) =>
        write_image.rows_loop fuel inner resource block_size total_num_blocks abort
          (j + block_size.y) trace1 queries1
    else .ok (trace, queries)

/-- The synchronous driver `write_image` (lines 281-321).  `abort n` is the
answer of the `n`-th call of `abort_requested()`. -/
def write_image (fuel : Nat) (resource : ImageResource) (image : ImageShape)
    (abort : Nat → Bool) : List Event × Outcome :=
  if image.cols ≠ 0 ∧ image.rows ≠ 0 ∧ image.planes ≠ 0 then
    let trace0 := [Event.report_progress 0 1]
    let block_size := resource.block_size
    match write_image.rows_loop fuel fuel resource block_size
        (total_blocks resource block_size) abort 0 trace0 0 with
    | .error r => r
    | .ok (trace1, _) => (trace1 ++ [Event.report_finished], Outcome.returned)
  else ([], Outcome.threw Exception.ArgumentErr)

/-! ## The run of `write_image` in closed form (used to state and prove properties) -/

/-- The calls made by one iteration of the inner loop of `write_image` at
`(i, j)` when the abort query is answered `false` (lines 300-316). -/
def write_image.body (resource : ImageResource) (block_size : Vector2i) (total_num_blocks : Int)
    (i j : Int) : List Event :=
  [Event.abort_requested false,
   Event.report_progress
    (j.tdiv block_size.y * ((resource.cols - 1).tdiv block_size.x + 1) + i.tdiv block_size.x)
    total_num_blocks,
   Event.write (current_bbox resource block_size i j)]

/-- The calls made for block row `r` when no abort is requested. -/
def write_image.row_events (resource : ImageResource) (block_size : Vector2i) (total : Int)
    (r : Nat) : List Event :=
  (List.range (num_cols resource block_size)).flatMap
    (fun (c : Nat) =>
      write_image.body resource block_size total ((c : Int) * block_size.x)
        ((r : Int) * block_size.y))

/-- The calls made for the `k`-th block (rows outer, columns inner) when the
abort query before it is answered `false`. -/
def write_image.block_events (resource : ImageResource) (k : Nat) : List Event :=
  write_image.body resource resource.block_size (total_blocks resource resource.block_size)
    (((k % num_cols resource resource.block_size : Nat) : Int) * resource.block_size.x)
    (((k / num_cols resource resource.block_size : Nat) : Int) * resource.block_size.y)

/-! ## Sequences of `CountingSemaphore` operations -/

/-- A call of a method of `CountingSemaphore`; `wait job_index` is a call of
`wait` that returns. -/
inductive SemOp where
  | set_max (max : Int)
  | wait (job_index : Int)
  | enter
  | release
deriving DecidableEq, Repr

/-- Whether the call is `enter()`. -/
def SemOp.isEnter : SemOp → Bool
  | .enter => true
  | _ => false

/-- Whether the call is `release()`. -/
def SemOp.isRelease : SemOp → Bool
  | .release => true
  | _ => false

/-- The counters after one call. -/
def CountingSemaphore.apply (s : CountingSemaphore) : SemOp → CountingSemaphore
  | .set_max max => s.set_max max
  | .wait job_index => s.wait_finish job_index
  | .enter => s.enter
  | .release => s.release

/-- The counters after a sequence of calls. -/
def CountingSemaphore.applyAll (s : CountingSemaphore) (ops : List SemOp) : CountingSemaphore :=
  ops.foldl CountingSemaphore.apply s

/-- Number of `enter()` calls in a sequence. -/
def enters (ops : List SemOp) : Nat := ops.countP SemOp.isEnter

/-- Number of `release()` calls in a sequence. -/
def releases (ops : List SemOp) : Nat := ops.countP SemOp.isRelease

/-- Every `release()` is preceded by an `enter()` of its own: in each initial
part of the sequence there are at least as many `enter()` as `release()`. -/
def released_after_enter (ops : List SemOp) : Bool :=
  (List.range (ops.length + 1)).all
    (fun n => decide (releases (ops.take n) ≤ enters (ops.take n)))

/-! # Properties -/

theorem mul_lt_iff_lt_count (W B : Int) (hW : 1 ≤ W) (hB : 1 ≤ B) (c : Nat) :
    (c : Int) * B < W ↔ c < ((W - 1).tdiv B + 1).toNat := by
  rw [Int.tdiv_eq_ediv (by omega) (by omega)]
  have hq : 0 ≤ (W - 1) / B := Int.ediv_nonneg (by omega) (by omega)
  have h1 : ((c : Int) ≤ (W - 1) / B) ↔ (c : Int) * B ≤ W - 1 :=
    Int.le_ediv_iff_mul_le (by omega)
  constructor
  · intro h
    have : (c : Int) ≤ (W - 1) / B := h1.mpr (by omega)
    omega
  · intro h
    have : (c : Int) ≤ (W - 1) / B := by omega
    have := h1.mp this
    omega

theorem cols_loop_eq (resource : ImageResource) (block_size : Vector2i) (total : Int) (j : Int)
    (hW : 1 ≤ resource.cols) (hx : 1 ≤ block_size.x) :
    ∀ (n c fuel : Nat) (trace : List Event), c + n = num_cols resource block_size → n < fuel →
      block_write_image.cols_loop fuel resource block_size total j (c * block_size.x) trace =
        some (trace ++ (List.range' c n).map
          (fun (c : Nat) => add_block_at resource block_size total ((c : Int) * block_size.x) j)) := by
  intro n
  induction n with
  | zero =>
    intro c fuel trace hc hf
    obtain ⟨f, rfl⟩ : ∃ f, fuel = f + 1 := ⟨fuel - 1, by omega⟩
    have : ¬ ((c : Int) * block_size.x < resource.cols) := by
      rw [mul_lt_iff_lt_count _ _ hW hx]
      unfold num_cols at hc
      omega
    simp [block_write_image.cols_loop, this]
  | succ n ih =>
    intro c fuel trace hc hf
    obtain ⟨f, rfl⟩ : ∃ f, fuel = f + 1 := ⟨fuel - 1, by omega⟩
    have : ((c : Int) * block_size.x < resource.cols) := by
      rw [mul_lt_iff_lt_count _ _ hW hx]
      unfold num_cols at hc
      omega
    have hnext : (c : Int) * block_size.x + block_size.x = ((c + 1 : Nat) : Int) * block_size.x := by
      push_cast; ring
    simp only [block_write_image.cols_loop, this, if_true]
    rw [hnext, ih (c + 1) f _ (by omega) (by omega)]
    simp [List.range'_succ, add_block_at]

theorem rows_loop_eq (resource : ImageResource) (block_size : Vector2i) (total : Int)
    (hW : 1 ≤ resource.cols) (hH : 1 ≤ resource.rows)
    (hx : 1 ≤ block_size.x) (hy : 1 ≤ block_size.y) :
    ∀ (n r fuel inner : Nat) (trace : List Event), r + n = num_rows resource block_size →
      n < fuel → num_cols resource block_size < inner →
      block_write_image.rows_loop fuel inner resource block_size total (r * block_size.y) trace =
        some (trace ++ (List.range' r n).flatMap (grid_row resource block_size total)) := by
  intro n
  induction n with
  | zero =>
    intro r fuel inner trace hr hf _
    obtain ⟨f, rfl⟩ : ∃ f, fuel = f + 1 := ⟨fuel - 1, by omega⟩
    have : ¬ ((r : Int) * block_size.y < resource.rows) := by
      rw [mul_lt_iff_lt_count _ _ hH hy]
      unfold num_rows at hr
      omega
    simp [block_write_image.rows_loop, this]
  | succ n ih =>
    intro r fuel inner trace hr hf hc
    obtain ⟨f, rfl⟩ : ∃ f, fuel = f + 1 := ⟨fuel - 1, by omega⟩
    have : ((r : Int) * block_size.y < resource.rows) := by
      rw [mul_lt_iff_lt_count _ _ hH hy]
      unfold num_rows at hr
      omega
    have hnext : (r : Int) * block_size.y + block_size.y = ((r + 1 : Nat) : Int) * block_size.y := by
      push_cast; ring
    have hcols := cols_loop_eq resource block_size total (r * block_size.y) hW hx
      (num_cols resource block_size) 0 inner trace (by omega) (by omega)
    simp only [Nat.cast_zero, zero_mul] at hcols
    simp only [block_write_image.rows_loop, this, if_true, hcols]
    rw [hnext, ih (r + 1) f inner _ (by omega) (by omega) (by omega)]
    simp [List.range'_succ, grid_row, List.range_eq_range']

theorem flatMap_range_map_range {α : Type} (f : Nat → Nat → α) (m n : Nat) :
    (List.range m).flatMap (fun r => (List.range n).map (f r)) =
      (List.range (m * n)).map (fun k => f (k / n) (k % n)) := by
  induction m with
  | zero => simp
  | succ m ih =>
    rw [List.range_succ, List.flatMap_append, ih, Nat.succ_mul, List.range_add, List.map_append]
    congr 1
    simp only [List.flatMap_cons, List.flatMap_nil, List.append_nil, List.map_map]
    apply List.map_congr_left
    intro x hx
    have hx' : x < n := List.mem_range.mp hx
    have hn : 0 < n := by omega
    simp only [Function.comp]
    rw [Nat.mul_comm m n, Nat.mul_add_div hn, Nat.mul_add_mod, Nat.div_eq_of_lt hx',
      Nat.mod_eq_of_lt hx']
    simp

theorem submitted_grid (resource : ImageResource) (total : Int) :
    submitted ((List.range (num_rows resource resource.block_size)).flatMap
        (grid_row resource resource.block_size total)) =
      (List.range (num_rows resource resource.block_size *
        num_cols resource resource.block_size)).map (grid_block resource) := by
  have h := flatMap_range_map_range
    (fun r c => (⟨current_bbox resource resource.block_size
        ((c : Int) * resource.block_size.x) ((r : Int) * resource.block_size.y),
      block_index resource resource.block_size
        ((c : Int) * resource.block_size.x) ((r : Int) * resource.block_size.y)⟩ : Block))
    (num_rows resource resource.block_size) (num_cols resource resource.block_size)
  unfold grid_block
  rw [← h]
  unfold submitted grid_row add_block_at
  induction (List.range (num_rows resource resource.block_size)) with
  | nil => simp
  | cons r rs ih =>
    simp only [List.flatMap_cons, List.filterMap_append, ih]
    congr 1
    induction (List.range (num_cols resource resource.block_size)) with
    | nil => rfl
    | cons c cs ihc => simp [List.filterMap_cons, Event.block?, ihc]

/-- With positive dimensions and block size, and enough fuel, the loop nest
submits exactly the grid blocks, in order. -/
theorem blocks_eq_grid (resource : ImageResource) (hW : 1 ≤ resource.cols)
    (hH : 1 ≤ resource.rows) (hx : 1 ≤ resource.block_size.x) (hy : 1 ≤ resource.block_size.y)
    (fuel : Nat) (hfr : num_rows resource resource.block_size < fuel)
    (hfc : num_cols resource resource.block_size < fuel) :
    block_write_image.blocks fuel resource =
      some ((List.range (num_rows resource resource.block_size *
        num_cols resource resource.block_size)).map (grid_block resource)) := by
  unfold block_write_image.blocks
  have h := rows_loop_eq resource resource.block_size
    (total_blocks resource resource.block_size) hW hH hx hy
    (num_rows resource resource.block_size) 0 fuel fuel [] (by omega) hfr hfc
  simp only [Nat.cast_zero, zero_mul] at h
  rw [h]
  simp only [Option.map_some', List.nil_append, ← List.range_eq_range', submitted_grid]

theorem countP_range_unique (q : Nat → Bool) (k0 : Nat) :
    ∀ n : Nat, (∀ k, k < n → (q k = true ↔ k = k0)) →
      List.countP q (List.range n) = if k0 < n then 1 else 0 := by
  intro n
  induction n with
  | zero => intro _; simp
  | succ n ih =>
    intro h
    rw [List.range_succ, List.countP_append, ih (fun k hk => h k (by omega))]
    have hn := h n (by omega)
    by_cases hq : q n = true
    · have : n = k0 := hn.mp hq
      subst this
      simp [hq]
    · have hne : n ≠ k0 := fun e => hq (hn.mpr e)
      have hq' : q n = false := by simpa using hq
      by_cases hlt : k0 < n
      · simp [hq', hlt, Nat.lt_succ_of_lt hlt]
      · have : ¬ k0 < n + 1 := by omega
        simp [hq', hlt, this]

theorem ediv_eq_iff_bounds (x B : Int) (hB : 1 ≤ B) (c : Nat) :
    ((c : Int) * B ≤ x ∧ x < (c : Int) * B + B) ↔ x / B = (c : Int) := by
  have h1 : ((c : Int) ≤ x / B) ↔ (c : Int) * B ≤ x := Int.le_ediv_iff_mul_le (by omega)
  have h2 : (x / B < (c : Int) + 1) ↔ x < ((c : Int) + 1) * B := Int.ediv_lt_iff_lt_mul (by omega)
  have h3 : ((c : Int) + 1) * B = (c : Int) * B + B := by ring
  rw [h3] at h2
  constructor
  · rintro ⟨ha, hb⟩
    have := h1.mpr ha
    have := h2.mpr hb
    omega
  · intro h
    exact ⟨h1.mp (by omega), h2.mp (by omega)⟩

theorem num_cols_cast (resource : ImageResource) (hW : 1 ≤ resource.cols)
    (hx : 1 ≤ resource.block_size.x) :
    ((num_cols resource resource.block_size : Nat) : Int) =
      (resource.cols - 1) / resource.block_size.x + 1 := by
  unfold num_cols
  rw [Int.tdiv_eq_ediv (by omega) (by omega)]
  have : 0 ≤ (resource.cols - 1) / resource.block_size.x := Int.ediv_nonneg (by omega) (by omega)
  omega

theorem num_rows_cast (resource : ImageResource) (hH : 1 ≤ resource.rows)
    (hy : 1 ≤ resource.block_size.y) :
    ((num_rows resource resource.block_size : Nat) : Int) =
      (resource.rows - 1) / resource.block_size.y + 1 := by
  unfold num_rows
  rw [Int.tdiv_eq_ediv (by omega) (by omega)]
  have : 0 ≤ (resource.rows - 1) / resource.block_size.y := Int.ediv_nonneg (by omega) (by omega)
  omega

theorem num_cols_pos (resource : ImageResource) (hW : 1 ≤ resource.cols)
    (hx : 1 ≤ resource.block_size.x) : 0 < num_cols resource resource.block_size := by
  have := (mul_lt_iff_lt_count resource.cols resource.block_size.x hW hx 0).mp (by simp; omega)
  exact this

theorem num_rows_pos (resource : ImageResource) (hH : 1 ≤ resource.rows)
    (hy : 1 ≤ resource.block_size.y) : 0 < num_rows resource resource.block_size := by
  have := (mul_lt_iff_lt_count resource.rows resource.block_size.y hH hy 0).mp (by simp; omega)
  exact this

theorem num_cols_le (resource : ImageResource) (hW : 1 ≤ resource.cols)
    (hx : 1 ≤ resource.block_size.x) :
    ((num_cols resource resource.block_size : Nat) : Int) ≤ resource.cols := by
  rw [num_cols_cast resource hW hx]
  have : (resource.cols - 1) / resource.block_size.x ≤ resource.cols - 1 :=
    Int.ediv_le_self _ (by omega)
  omega

theorem num_rows_le (resource : ImageResource) (hH : 1 ≤ resource.rows)
    (hy : 1 ≤ resource.block_size.y) :
    ((num_rows resource resource.block_size : Nat) : Int) ≤ resource.rows := by
  rw [num_rows_cast resource hH hy]
  have : (resource.rows - 1) / resource.block_size.y ≤ resource.rows - 1 :=
    Int.ediv_le_self _ (by omega)
  omega

/-- Position of a grid index inside the grid. -/
theorem grid_position (resource : ImageResource) (k : Nat)
    (hk : k < num_rows resource resource.block_size * num_cols resource resource.block_size) :
    k % num_cols resource resource.block_size < num_cols resource resource.block_size ∧
    k / num_cols resource resource.block_size < num_rows resource resource.block_size := by
  have hpos : 0 < num_cols resource resource.block_size := by
    rcases Nat.eq_zero_or_pos (num_cols resource resource.block_size) with h | h
    · rw [h] at hk; simp at hk
    · exact h
  exact ⟨Nat.mod_lt _ hpos, Nat.div_lt_of_lt_mul (by rwa [Nat.mul_comm] at hk)⟩

theorem grid_block_contains (resource : ImageResource)
    (hx : 1 ≤ resource.block_size.x) (hy : 1 ≤ resource.block_size.y)
    (x y : Int) (hxW : x < resource.cols) (hyH : y < resource.rows) (k : Nat) :
    (grid_block resource k).bbox.contains x y = true ↔
      x / resource.block_size.x = ((k % num_cols resource resource.block_size : Nat) : Int) ∧
      y / resource.block_size.y = ((k / num_cols resource resource.block_size : Nat) : Int) := by
  rw [← ediv_eq_iff_bounds x _ hx, ← ediv_eq_iff_bounds y _ hy]
  simp only [grid_block, current_bbox, BBox2i.contains, Bool.and_eq_true, decide_eq_true_eq,
    lt_min_iff]
  constructor
  · rintro ⟨⟨⟨h1, h2, _⟩, h3⟩, h4, _⟩
    exact ⟨⟨h1, h2⟩, h3, h4⟩
  · rintro ⟨⟨h1, h2⟩, h3, h4⟩
    exact ⟨⟨⟨h1, h2, hxW⟩, h3⟩, h4, hyH⟩

theorem grid_block_bounds (resource : ImageResource) (hW : 1 ≤ resource.cols)
    (hH : 1 ≤ resource.rows) (hx : 1 ≤ resource.block_size.x) (hy : 1 ≤ resource.block_size.y)
    (k : Nat)
    (hk : k < num_rows resource resource.block_size * num_cols resource resource.block_size) :
    0 ≤ (grid_block resource k).bbox.min.x ∧
    (grid_block resource k).bbox.min.x < (grid_block resource k).bbox.max.x ∧
    (grid_block resource k).bbox.max.x ≤ resource.cols ∧
    0 ≤ (grid_block resource k).bbox.min.y ∧
    (grid_block resource k).bbox.min.y < (grid_block resource k).bbox.max.y ∧
    (grid_block resource k).bbox.max.y ≤ resource.rows := by
  obtain ⟨hc, hr⟩ := grid_position resource k hk
  have hc' := (mul_lt_iff_lt_count resource.cols resource.block_size.x hW hx _).mpr hc
  have hr' := (mul_lt_iff_lt_count resource.rows resource.block_size.y hH hy _).mpr hr
  have h0c : (0 : Int) ≤ ((k % num_cols resource resource.block_size : Nat) : Int) *
      resource.block_size.x := Int.mul_nonneg (Int.ofNat_nonneg _) (by omega)
  have h0r : (0 : Int) ≤ ((k / num_cols resource resource.block_size : Nat) : Int) *
      resource.block_size.y := Int.mul_nonneg (Int.ofNat_nonneg _) (by omega)
  simp only [grid_block, current_bbox, lt_min_iff, min_le_iff]
  refine ⟨h0c, ⟨by omega, hc'⟩, Or.inr le_rfl, h0r, ⟨by omega, hr'⟩, Or.inr le_rfl⟩

theorem grid_block_extent (resource : ImageResource) (hW : 1 ≤ resource.cols)
    (hH : 1 ≤ resource.rows) (hx : 1 ≤ resource.block_size.x) (hy : 1 ≤ resource.block_size.y)
    (k : Nat)
    (hk : k < num_rows resource resource.block_size * num_cols resource resource.block_size) :
    (grid_block resource k).bbox.width ≤ resource.block_size.x ∧
    (grid_block resource k).bbox.height ≤ resource.block_size.y ∧
    ((grid_block resource k).bbox.width < resource.block_size.x →
      (grid_block resource k).bbox.min.x =
        (resource.cols - 1) / resource.block_size.x * resource.block_size.x) ∧
    ((grid_block resource k).bbox.height < resource.block_size.y →
      (grid_block resource k).bbox.min.y =
        (resource.rows - 1) / resource.block_size.y * resource.block_size.y) := by
  obtain ⟨hc, hr⟩ := grid_position resource k hk
  have hc' := (mul_lt_iff_lt_count resource.cols resource.block_size.x hW hx _).mpr hc
  have hr' := (mul_lt_iff_lt_count resource.rows resource.block_size.y hH hy _).mpr hr
  simp only [grid_block, current_bbox, BBox2i.width, BBox2i.height]
  refine ⟨?_, ?_, ?_, ?_⟩
  · have := min_le_left
      (((k % num_cols resource resource.block_size : Nat) : Int) * resource.block_size.x +
        resource.block_size.x) resource.cols
    omega
  · have := min_le_left
      (((k / num_cols resource resource.block_size : Nat) : Int) * resource.block_size.y +
        resource.block_size.y) resource.rows
    omega
  · intro h
    have hlt : resource.cols - 1 <
        ((k % num_cols resource resource.block_size : Nat) : Int) * resource.block_size.x +
          resource.block_size.x := by
      rcases min_choice
        (((k % num_cols resource resource.block_size : Nat) : Int) * resource.block_size.x +
          resource.block_size.x) resource.cols with e | e
      · rw [e] at h; omega
      · rw [e] at h; omega
    have := (ediv_eq_iff_bounds (resource.cols - 1) _ hx _).mp ⟨by omega, hlt⟩
    rw [this]
  · intro h
    have hlt : resource.rows - 1 <
        ((k / num_cols resource resource.block_size : Nat) : Int) * resource.block_size.y +
          resource.block_size.y := by
      rcases min_choice
        (((k / num_cols resource resource.block_size : Nat) : Int) * resource.block_size.y +
          resource.block_size.y) resource.rows with e | e
      · rw [e] at h; omega
      · rw [e] at h; omega
    have := (ediv_eq_iff_bounds (resource.rows - 1) _ hy _).mp ⟨by omega, hlt⟩
    rw [this]

theorem grid_cover (resource : ImageResource) (hW : 1 ≤ resource.cols)
    (hH : 1 ≤ resource.rows) (hx : 1 ≤ resource.block_size.x) (hy : 1 ≤ resource.block_size.y)
    (x y : Int) (hx0 : 0 ≤ x) (hxW : x < resource.cols) (hy0 : 0 ≤ y) (hyH : y < resource.rows) :
    ((List.range (num_rows resource resource.block_size *
        num_cols resource resource.block_size)).map (grid_block resource)).countP
      (fun b => b.bbox.contains x y) = 1 := by
  have hqx : 0 ≤ x / resource.block_size.x := Int.ediv_nonneg hx0 (by omega)
  have hqy : 0 ≤ y / resource.block_size.y := Int.ediv_nonneg hy0 (by omega)
  have hcx : x / resource.block_size.x < (num_cols resource resource.block_size : Int) := by
    rw [num_cols_cast resource hW hx]
    have : x / resource.block_size.x ≤ (resource.cols - 1) / resource.block_size.x :=
      Int.ediv_le_ediv (by omega) (by omega)
    omega
  have hry : y / resource.block_size.y < (num_rows resource resource.block_size : Int) := by
    rw [num_rows_cast resource hH hy]
    have : y / resource.block_size.y ≤ (resource.rows - 1) / resource.block_size.y :=
      Int.ediv_le_ediv (by omega) (by omega)
    omega
  obtain ⟨c0, hc0⟩ := Int.eq_ofNat_of_zero_le hqx
  obtain ⟨r0, hr0⟩ := Int.eq_ofNat_of_zero_le hqy
  rw [hc0] at hcx
  rw [hr0] at hry
  have hc0lt : c0 < num_cols resource resource.block_size := by exact_mod_cast hcx
  have hr0lt : r0 < num_rows resource resource.block_size := by exact_mod_cast hry
  rw [List.countP_map]
  rw [countP_range_unique _ (r0 * num_cols resource resource.block_size + c0)]
  · have : r0 * num_cols resource resource.block_size + c0 <
        num_rows resource resource.block_size * num_cols resource resource.block_size := by
      calc r0 * num_cols resource resource.block_size + c0
          < r0 * num_cols resource resource.block_size + num_cols resource resource.block_size :=
            by omega
        _ = (r0 + 1) * num_cols resource resource.block_size := by ring
        _ ≤ num_rows resource resource.block_size * num_cols resource resource.block_size :=
            Nat.mul_le_mul_right _ hr0lt
    simp [this]
  · intro k _
    simp only [Function.comp]
    rw [grid_block_contains resource hx hy x y hxW hyH k, hc0, hr0]
    constructor
    · rintro ⟨h1, h2⟩
      have h1' : c0 = k % num_cols resource resource.block_size := by exact_mod_cast h1
      have h2' : r0 = k / num_cols resource resource.block_size := by exact_mod_cast h2
      rw [h1', h2']
      exact (Nat.div_add_mod' k _).symm
    · intro hk
      subst hk
      have hpos : 0 < num_cols resource resource.block_size := by omega
      constructor
      · congr 1
        rw [Nat.mul_comm, Nat.mul_add_mod, Nat.mod_eq_of_lt hc0lt]
      · congr 1
        rw [Nat.mul_comm, Nat.mul_add_div hpos, Nat.div_eq_of_lt hc0lt]
        simp

/-! ## C1: the submitted boxes partition the resource -/

/-- C1. For a resource with `cols = W >= 1`, `rows = H >= 1` and block size
`(Bx, By)` with `Bx, By >= 1`, the loop nest of `block_write_image` ends (any
fuel above `W` and `H` is enough) and the boxes it submits partition
`[0,W) x [0,H)`: every pixel of the resource lies in exactly one submitted
box, every box is `[i, min(i+Bx, W)) x [j, min(j+By, H))`, non-empty and
inside the resource bounds, no extent exceeds the block size, and a box
narrower than `Bx` starts at the origin of the last block column, a box
lower than `By` at the origin of the last block row. -/
theorem block_write_image_boxes_partition (resource : ImageResource)
    (hW : 1 ≤ resource.cols) (hH : 1 ≤ resource.rows)
    (hx : 1 ≤ resource.block_size.x) (hy : 1 ≤ resource.block_size.y) :
    ∃ blocks : List Block,
      (∀ fuel : Nat, resource.rows < fuel → resource.cols < fuel →
        block_write_image.blocks fuel resource = some blocks) ∧
      (∀ x y : Int, 0 ≤ x → x < resource.cols → 0 ≤ y → y < resource.rows →
        blocks.countP (fun b => b.bbox.contains x y) = 1) ∧
      (∀ b ∈ blocks,
        b.bbox.max.x = min (b.bbox.min.x + resource.block_size.x) resource.cols ∧
        b.bbox.max.y = min (b.bbox.min.y + resource.block_size.y) resource.rows) ∧
      (∀ b ∈ blocks,
        0 ≤ b.bbox.min.x ∧ b.bbox.min.x < b.bbox.max.x ∧ b.bbox.max.x ≤ resource.cols ∧
        0 ≤ b.bbox.min.y ∧ b.bbox.min.y < b.bbox.max.y ∧ b.bbox.max.y ≤ resource.rows) ∧
      (∀ b ∈ blocks,
        b.bbox.width ≤ resource.block_size.x ∧ b.bbox.height ≤ resource.block_size.y ∧
        (b.bbox.width < resource.block_size.x →
          b.bbox.min.x = (resource.cols - 1) / resource.block_size.x * resource.block_size.x) ∧
        (b.bbox.height < resource.block_size.y →
          b.bbox.min.y = (resource.rows - 1) / resource.block_size.y * resource.block_size.y)) := by
  refine ⟨(List.range (num_rows resource resource.block_size *
      num_cols resource resource.block_size)).map (grid_block resource), ?_, ?_, ?_, ?_, ?_⟩
  · intro fuel hfr hfc
    have h1 := num_rows_le resource hH hy
    have h2 := num_cols_le resource hW hx
    exact blocks_eq_grid resource hW hH hx hy fuel (by omega) (by omega)
  · intro x y hx0 hxW hy0 hyH
    exact grid_cover resource hW hH hx hy x y hx0 hxW hy0 hyH
  · intro b hb
    obtain ⟨k, _, rfl⟩ := List.mem_map.mp hb
    exact ⟨rfl, rfl⟩
  · intro b hb
    obtain ⟨k, hk, rfl⟩ := List.mem_map.mp hb
    exact grid_block_bounds resource hW hH hx hy k (List.mem_range.mp hk)
  · intro b hb
    obtain ⟨k, hk, rfl⟩ := List.mem_map.mp hb
    exact grid_block_extent resource hW hH hx hy k (List.mem_range.mp hk)

/-- C1 at a 25 x 25 resource with 10 x 10 blocks. -/
theorem block_write_image_boxes_partition_witness :
    ∃ blocks : List Block,
      (∀ fuel : Nat, (25 : Int) < fuel → (25 : Int) < fuel →
        block_write_image.blocks fuel ⟨25, 25, ⟨10, 10⟩⟩ = some blocks) ∧
      (∀ x y : Int, 0 ≤ x → x < 25 → 0 ≤ y → y < 25 →
        blocks.countP (fun b => b.bbox.contains x y) = 1) ∧
      (∀ b ∈ blocks,
        b.bbox.max.x = min (b.bbox.min.x + 10) 25 ∧
        b.bbox.max.y = min (b.bbox.min.y + 10) 25) ∧
      (∀ b ∈ blocks,
        0 ≤ b.bbox.min.x ∧ b.bbox.min.x < b.bbox.max.x ∧ b.bbox.max.x ≤ 25 ∧
        0 ≤ b.bbox.min.y ∧ b.bbox.min.y < b.bbox.max.y ∧ b.bbox.max.y ≤ 25) ∧
      (∀ b ∈ blocks,
        b.bbox.width ≤ 10 ∧ b.bbox.height ≤ 10 ∧
        (b.bbox.width < 10 → b.bbox.min.x = (25 - 1) / 10 * 10) ∧
        (b.bbox.height < 10 → b.bbox.min.y = (25 - 1) / 10 * 10)) :=
  block_write_image_boxes_partition ⟨25, 25, ⟨10, 10⟩⟩ (by decide) (by decide) (by decide)
    (by decide)

/-! ## C2: number of tasks and their indices -/

/-- With positive dimensions and block size, the loop nest hands the value
`total_num_blocks` to every task, once per grid block. -/
theorem totals_eq_grid (resource : ImageResource) (hW : 1 ≤ resource.cols)
    (hH : 1 ≤ resource.rows) (hx : 1 ≤ resource.block_size.x) (hy : 1 ≤ resource.block_size.y)
    (fuel : Nat) (hfr : num_rows resource resource.block_size < fuel)
    (hfc : num_cols resource resource.block_size < fuel) :
    block_write_image.totals fuel resource =
      some (List.replicate (num_rows resource resource.block_size *
        num_cols resource resource.block_size) (total_blocks resource resource.block_size)) := by
  unfold block_write_image.totals
  have h := rows_loop_eq resource resource.block_size
    (total_blocks resource resource.block_size) hW hH hx hy
    (num_rows resource resource.block_size) 0 fuel fuel [] (by omega) hfr hfc
  simp only [Nat.cast_zero, zero_mul] at h
  rw [h]
  simp only [Option.map_some', List.nil_append, ← List.range_eq_range', Option.some.injEq]
  generalize total_blocks resource resource.block_size = total
  unfold grid_row add_block_at
  induction (num_rows resource resource.block_size) with
  | zero => simp
  | succ n ih =>
    rw [List.range_succ, List.flatMap_append, List.filterMap_append, ih, Nat.succ_mul,
      List.replicate_add]
    congr 1
    simp only [List.flatMap_cons, List.flatMap_nil, List.append_nil]
    generalize num_cols resource resource.block_size = m
    induction m with
    | zero => simp
    | succ m ihm =>
      rw [List.range_succ, List.map_append, List.filterMap_append, ihm, List.replicate_succ']
      simp [Event.total?]

/-- The number of grid blocks is the value of `total_num_blocks`. -/
theorem total_blocks_eq_count (resource : ImageResource) (hW : 1 ≤ resource.cols)
    (hH : 1 ≤ resource.rows) (hx : 1 ≤ resource.block_size.x) (hy : 1 ≤ resource.block_size.y) :
    total_blocks resource resource.block_size =
      ((num_rows resource resource.block_size * num_cols resource resource.block_size : Nat) :
        Int) := by
  unfold total_blocks
  rw [Int.tdiv_eq_ediv (by omega) (by omega), Int.tdiv_eq_ediv (by omega) (by omega)]
  push_cast
  rw [num_rows_cast resource hH hy, num_cols_cast resource hW hx]

/-- The index of the `k`-th grid block, in terms of `col_blocks`. -/
theorem grid_block_index (resource : ImageResource)
    (hx : 1 ≤ resource.block_size.x) (hy : 1 ≤ resource.block_size.y) (k : Nat) :
    (grid_block resource k).index =
      ((k / num_cols resource resource.block_size : Nat) : Int) *
        col_blocks resource resource.block_size +
      ((k % num_cols resource resource.block_size : Nat) : Int) := by
  simp only [grid_block, block_index]
  rw [Int.tdiv_eq_ediv (Int.mul_nonneg (Int.ofNat_nonneg _) (by omega)) (by omega),
    Int.tdiv_eq_ediv (Int.mul_nonneg (Int.ofNat_nonneg _) (by omega)) (by omega),
    Int.mul_ediv_cancel _ (by omega), Int.mul_ediv_cancel _ (by omega)]

/-- Where the binary32 quotient of line 265 gives the number of block columns,
the `k`-th submitted block has index `k`. -/
theorem grid_block_index_exact (resource : ImageResource)
    (hx : 1 ≤ resource.block_size.x) (hy : 1 ≤ resource.block_size.y)
    (hexact : col_blocks resource resource.block_size =
      (num_cols resource resource.block_size : Int)) (k : Nat) :
    (grid_block resource k).index = (k : Int) := by
  rw [grid_block_index resource hx hy, hexact]
  have := Nat.div_add_mod' k (num_cols resource resource.block_size)
  exact_mod_cast this

/-! ## Exactness of the binary32 quotient below `2 ^ 24` -/

theorem bitLength_spec : ∀ (fuel n : Nat), 1 ≤ n → n < 2 ^ fuel →
    1 ≤ bitLength fuel n ∧ 2 ^ (bitLength fuel n - 1) ≤ n ∧ n < 2 ^ bitLength fuel n := by
  intro fuel
  induction fuel with
  | zero => intro n h1 h2; simp at h2; omega
  | succ fuel ih =>
    intro n h1 h2
    have hn : n ≠ 0 := by omega
    simp only [bitLength, hn, if_false]
    by_cases h : n / 2 = 0
    · have : n = 1 := by omega
      subst this
      cases fuel <;> simp [bitLength]
    · have hlt : n / 2 < 2 ^ fuel := by
        rw [pow_succ] at h2; omega
      obtain ⟨a, b, c⟩ := ih (n / 2) (by omega) hlt
      refine ⟨by omega, ?_, ?_⟩
      · have e : bitLength fuel (n / 2) + 1 - 1 = (bitLength fuel (n / 2) - 1) + 1 := by omega
        rw [e, pow_succ]; omega
      · rw [pow_succ]; omega

theorem bitLength_unique (fuel n L : Nat) (h1 : 1 ≤ n) (h2 : n < 2 ^ fuel) (hL : 1 ≤ L)
    (hlo : 2 ^ (L - 1) ≤ n) (hhi : n < 2 ^ L) : bitLength fuel n = L := by
  obtain ⟨a, b, c⟩ := bitLength_spec fuel n h1 h2
  have h3 : 2 ^ (L - 1) < 2 ^ bitLength fuel n := lt_of_le_of_lt hlo c
  have h4 : 2 ^ (bitLength fuel n - 1) < 2 ^ L := lt_of_le_of_lt b hhi
  have h5 := (Nat.pow_lt_pow_iff_right (a := 2) (by omega)).mp h3
  have h6 := (Nat.pow_lt_pow_iff_right (a := 2) (by omega)).mp h4
  omega

theorem roundHalfEven_le (N D K : Nat) (hD : 0 < D) (h : N ≤ K * D) : roundHalfEven N D ≤ K := by
  have hq : N / D ≤ K := by
    have := Nat.div_le_div_right (c := D) h
    rwa [Nat.mul_div_cancel _ hD] at this
  unfold roundHalfEven
  rcases Nat.lt_or_eq_of_le hq with hlt | heq
  · split_ifs <;> omega
  · have hmod : N % D = 0 := by
      have := Nat.div_add_mod N D
      rw [heq] at this
      have h' : D * K + N % D ≤ K * D := by omega
      rw [Nat.mul_comm] at h'
      omega
    simp [hmod, hD, heq]

theorem lt_roundHalfEven (N D K : Nat) (hD : 0 < D) (h : (2 * K + 1) * D < 2 * N) :
    K < roundHalfEven N D := by
  have hKD : K * D < N := by nlinarith
  have hq : K ≤ N / D := by
    rw [Nat.le_div_iff_mul_le hD]; omega
  unfold roundHalfEven
  rcases Nat.lt_or_eq_of_le hq with hlt | heq
  · split_ifs <;> omega
  · have hdm := Nat.div_add_mod N D
    rw [← heq] at hdm
    have h2 : D < 2 * (N % D) := by nlinarith
    have h3 : ¬ (2 * (N % D) < D) := by omega
    simp only [h3, if_false, h2, if_true]
    omega

theorem roundHalfEven_exact (a D : Nat) (hD : 0 < D) : roundHalfEven (a * D) D = a := by
  unfold roundHalfEven
  simp [Nat.mul_mod_left, Nat.mul_div_cancel _ hD, hD]

theorem bitLength_le_24 (n : Nat) (h1 : 1 ≤ n) (h2 : n < 2 ^ 24) :
    1 ≤ bitLength 64 n ∧ bitLength 64 n ≤ 24 ∧ 2 ^ (bitLength 64 n - 1) ≤ n ∧
      n < 2 ^ bitLength 64 n := by
  have h64 : n < 2 ^ 64 := lt_trans h2 (by norm_num)
  obtain ⟨a, b, c⟩ := bitLength_spec 64 n h1 h64
  have h3 : 2 ^ (bitLength 64 n - 1) < 2 ^ 24 := lt_of_le_of_lt b h2
  have h4 := (Nat.pow_lt_pow_iff_right (a := 2) (by omega)).mp h3
  exact ⟨a, by omega, b, c⟩

theorem Float32.ofRatio_pos (num den : Nat) (hnum : num ≠ 0) (k : Nat)
    (hk : ((bitLength 64 num : Int) - (bitLength 64 den : Int)) = 24 - (k : Int)) :
    Float32.ofRatio false num den =
      if 2 ^ 24 * den ≤ num * 2 ^ k then ⟨false, roundHalfEven (num * 2 ^ k) (2 * den), 1 - (k : Int)⟩
      else ⟨false, roundHalfEven (num * 2 ^ k) den, -(k : Int)⟩ := by
  unfold Float32.ofRatio
  simp only [hnum, if_false, hk]
  have e1 : (24 : Int) - (24 - (k : Int)) = (k : Int) := by ring
  simp only [e1, Int.ofNat_nonneg, if_true, Int.toNat_ofNat]

theorem Float32.ofInt_exact (n : Nat) (h1 : 1 ≤ n) (h2 : n < 2 ^ 24) :
    Float32.ofInt (n : Int) =
      ⟨false, n * 2 ^ (24 - bitLength 64 n), (bitLength 64 n : Int) - 24⟩ := by
  obtain ⟨hL1, hL24, hlo, hhi⟩ := bitLength_le_24 n h1 h2
  have hone : bitLength 64 1 = 1 := by decide
  have hneg : decide ((n : Int) < 0) = false := by simp
  unfold Float32.ofInt
  rw [hneg, Int.natAbs_ofNat]
  rw [Float32.ofRatio_pos n 1 (by omega) (25 - bitLength 64 n) (by rw [hone]; omega)]
  have hpow : n * 2 ^ (25 - bitLength 64 n) = (n * 2 ^ (24 - bitLength 64 n)) * 2 := by
    have : 25 - bitLength 64 n = (24 - bitLength 64 n) + 1 := by omega
    rw [this, pow_succ, Nat.mul_assoc]
  have hge : 2 ^ 24 * 1 ≤ n * 2 ^ (25 - bitLength 64 n) := by
    calc 2 ^ 24 * 1 = 2 ^ (bitLength 64 n - 1) * 2 ^ (25 - bitLength 64 n) := by
          have e : bitLength 64 n - 1 + (25 - bitLength 64 n) = 24 := by omega
          rw [← pow_add, e, Nat.mul_one]
      _ ≤ n * 2 ^ (25 - bitLength 64 n) := Nat.mul_le_mul_right _ hlo
  rw [if_pos hge, hpow, Nat.mul_one, roundHalfEven_exact _ 2 (by omega)]
  congr 1
  omega

/-- The arithmetic behind the exactness of line 265. `N / D` is the quotient
`W / B` scaled by `P`, a power of two that brings it to 24 significant bits;
rounding it to the nearest integer and taking the ceiling after scaling back
gives the ceiling of `W / B`. -/
theorem ceil_round_scaled (W B N D P : Nat) (hW : 1 ≤ W) (hW24 : W < 2 ^ 24) (hB : 1 ≤ B)
    (hD : 0 < D) (hP : 0 < P) (hrel : N * B = W * P * D) (hlo : 2 ^ 23 * D ≤ N) :
    (roundHalfEven N D + P - 1) / P = (W - 1) / B + 1 := by
  have hn1 : (W - 1) / B * B ≤ W - 1 := Nat.div_mul_le_self _ _
  have hn2 : W - 1 < ((W - 1) / B + 1) * B := by
    have := Nat.lt_succ_self ((W - 1) / B)
    exact (Nat.div_lt_iff_lt_mul hB).mp this
  generalize (W - 1) / B = q at hn1 hn2 ⊢
  -- `B < 2 * P`
  have hBP : B < 2 * P := by
    have h1 : 2 ^ 23 * D * B ≤ W * P * D := by
      calc 2 ^ 23 * D * B ≤ N * B := Nat.mul_le_mul_right _ hlo
        _ = W * P * D := hrel
    have h2 : W * P * D < 2 ^ 24 * P * D :=
      Nat.mul_lt_mul_of_pos_right (Nat.mul_lt_mul_of_pos_right hW24 hP) hD
    have h3 : (2 ^ 23 * B) * D < (2 ^ 24 * P) * D := by
      calc (2 ^ 23 * B) * D = 2 ^ 23 * D * B := by ring
        _ ≤ W * P * D := h1
        _ < 2 ^ 24 * P * D := h2
    have h4 := Nat.lt_of_mul_lt_mul_right h3
    omega
  -- upper bound
  have hup : roundHalfEven N D ≤ (q + 1) * P := by
    apply roundHalfEven_le N D _ hD
    have h1 : N * B ≤ ((q + 1) * P * D) * B := by
      rw [hrel]
      calc W * P * D ≤ ((q + 1) * B) * P * D :=
            Nat.mul_le_mul_right _ (Nat.mul_le_mul_right _ (by omega))
        _ = ((q + 1) * P * D) * B := by ring
    exact Nat.le_of_mul_le_mul_right h1 hB
  -- lower bound
  have hlow : q * P < roundHalfEven N D := by
    apply lt_roundHalfEven N D _ hD
    have h1 : ((2 * (q * P) + 1) * D) * B < (2 * N) * B := by
      have e1 : (2 * N) * B = 2 * (W * P * D) := by rw [Nat.mul_assoc, hrel]
      rw [e1]
      have hWq : q * B + 1 ≤ W := by omega
      have h5 : 2 * ((q * B + 1) * P * D) ≤ 2 * (W * P * D) :=
        Nat.mul_le_mul_left _ (Nat.mul_le_mul_right _ (Nat.mul_le_mul_right _ hWq))
      have h6 : ((2 * (q * P) + 1) * D) * B < 2 * ((q * B + 1) * P * D) := by
        have e2 : ((2 * (q * P) + 1) * D) * B = 2 * (q * B * P * D) + B * D := by ring
        have e3 : 2 * ((q * B + 1) * P * D) = 2 * (q * B * P * D) + (2 * P) * D := by ring
        rw [e2, e3]
        have : B * D < (2 * P) * D := Nat.mul_lt_mul_of_pos_right hBP hD
        omega
      omega
    exact Nat.lt_of_mul_lt_mul_right h1
  apply Nat.div_eq_of_lt_le
  · have : (q + 1) * P = q * P + P := by ring
    omega
  · have : (q + 1 + 1) * P = (q + 1) * P + P := by ring
    omega

theorem Float32.ceilToInt_scaled (m s : Nat) :
    Float32.ceilToInt ⟨false, m, -(s : Int)⟩ = (((m + 2 ^ s - 1) / 2 ^ s : Nat) : Int) := by
  unfold Float32.ceilToInt
  cases s with
  | zero => simp
  | succ s =>
    have h1 : ¬ ((0 : Int) ≤ -((s + 1 : Nat) : Int)) := by push_cast; omega
    have h2 : (-(-((s + 1 : Nat) : Int))).toNat = s + 1 := by
      rw [neg_neg, Int.toNat_ofNat]
    simp only [h1, if_false, Bool.false_eq_true, h2]

theorem bitLength_shift (n L j : Nat) (h1 : 1 ≤ n) (hL : 1 ≤ L) (hlo : 2 ^ (L - 1) ≤ n)
    (hhi : n < 2 ^ L) (h64 : L + j ≤ 64) : bitLength 64 (n * 2 ^ j) = L + j := by
  have hpos : 0 < 2 ^ j := Nat.pow_pos (by omega)
  have hhi' : n * 2 ^ j < 2 ^ (L + j) := by
    rw [pow_add]; exact Nat.mul_lt_mul_of_pos_right hhi hpos
  apply bitLength_unique 64 (n * 2 ^ j) (L + j) (Nat.mul_pos h1 hpos) _ (by omega) _ hhi'
  · exact lt_of_lt_of_le hhi' (Nat.pow_le_pow_right (by omega) h64)
  · have e : L + j - 1 = (L - 1) + j := by omega
    rw [e, pow_add]
    exact Nat.mul_le_mul_right _ hlo

/-- Below `2 ^ 24` the binary32 computation of line 265 gives the number of
block columns of the integer formula of line 251. -/
theorem float_ceil_div_exact (W B : Nat) (hW : 1 ≤ W) (hW24 : W < 2 ^ 24) (hB : 1 ≤ B)
    (hB24 : B < 2 ^ 24) :
    (Float32.div (Float32.ofInt (W : Int)) (Float32.ofInt (B : Int))).ceilToInt =
      (((W - 1) / B + 1 : Nat) : Int) := by
  obtain ⟨hw1, hw24, hwlo, hwhi⟩ := bitLength_le_24 W hW hW24
  obtain ⟨hb1, hb24, hblo, hbhi⟩ := bitLength_le_24 B hB hB24
  rw [Float32.ofInt_exact W hW hW24, Float32.ofInt_exact B hB hB24]
  generalize hLw : bitLength 64 W = Lw at *
  generalize hLb : bitLength 64 B = Lb at *
  unfold Float32.div
  simp only [Bool.xor_false]
  have e1 : (((Lw : Int) - 24) - ((Lb : Int) - 24)).toNat = Lw - Lb := by omega
  have e2 : (((Lb : Int) - 24) - ((Lw : Int) - 24)).toNat = Lb - Lw := by omega
  rw [e1, e2]
  obtain ⟨j, hj⟩ : ∃ j, j = 24 - Lw + (Lw - Lb) := ⟨_, rfl⟩
  have hj' : j = 24 - Lb + (Lb - Lw) := by omega
  have en : W * 2 ^ (24 - Lw) * 2 ^ (Lw - Lb) = W * 2 ^ j := by
    rw [Nat.mul_assoc, ← pow_add, hj]
  have ed : B * 2 ^ (24 - Lb) * 2 ^ (Lb - Lw) = B * 2 ^ j := by
    rw [Nat.mul_assoc, ← pow_add, hj']
  rw [en, ed]
  have hpj : 0 < 2 ^ j := Nat.pow_pos (by omega)
  have hbn : bitLength 64 (W * 2 ^ j) = Lw + j :=
    bitLength_shift W Lw j hW hw1 hwlo hwhi (by omega)
  have hbd : bitLength 64 (B * 2 ^ j) = Lb + j :=
    bitLength_shift B Lb j hB hb1 hblo hbhi (by omega)
  obtain ⟨k, hk⟩ : ∃ k, k = 24 + Lb - Lw := ⟨_, rfl⟩
  have hk1 : 1 ≤ k := by omega
  rw [Float32.ofRatio_pos (W * 2 ^ j) (B * 2 ^ j) (Nat.mul_pos hW hpj).ne' k
    (by rw [hbn, hbd]; push_cast; omega)]
  have hD : 0 < B * 2 ^ j := Nat.mul_pos hB hpj
  split
  · rename_i hcond
    have hexp : (1 : Int) - (k : Int) = -((k - 1 : Nat) : Int) := by omega
    rw [hexp, Float32.ceilToInt_scaled]
    congr 1
    apply ceil_round_scaled W B _ _ _ hW hW24 hB (by omega) (Nat.pow_pos (by omega))
    · have e : 2 ^ k = 2 ^ (k - 1) * 2 := by
        rw [← pow_succ]; congr 1; omega
      rw [e]; ring
    · calc 2 ^ 23 * (2 * (B * 2 ^ j)) = 2 ^ 24 * (B * 2 ^ j) := by ring
        _ ≤ W * 2 ^ j * 2 ^ k := hcond
  · rw [Float32.ceilToInt_scaled]
    congr 1
    apply ceil_round_scaled W B _ _ _ hW hW24 hB hD (Nat.pow_pos (by omega))
    · ring
    · have h1 : 2 ^ 23 * (B * 2 ^ j) ≤ 2 ^ 23 * (2 ^ Lb * 2 ^ j) :=
        Nat.mul_le_mul_left _ (Nat.mul_le_mul_right _ (le_of_lt hbhi))
      have h2 : 2 ^ 23 * (2 ^ Lb * 2 ^ j) = 2 ^ (Lw - 1) * 2 ^ j * 2 ^ k := by
        rw [← pow_add, ← pow_add, ← pow_add, ← pow_add]
        congr 1
        omega
      have h3 : 2 ^ (Lw - 1) * 2 ^ j * 2 ^ k ≤ W * 2 ^ j * 2 ^ k :=
        Nat.mul_le_mul_right _ (Nat.mul_le_mul_right _ hwlo)
      omega

/-- For a resource narrower than `2 ^ 24` columns, with a block width below
`2 ^ 24`, `col_blocks` is the number of block columns. -/
theorem col_blocks_exact (resource : ImageResource) (hW : 1 ≤ resource.cols)
    (hW24 : resource.cols < 2 ^ 24) (hx : 1 ≤ resource.block_size.x)
    (hx24 : resource.block_size.x < 2 ^ 24) :
    col_blocks resource resource.block_size =
      (num_cols resource resource.block_size : Int) := by
  obtain ⟨W, hWe⟩ := Int.eq_ofNat_of_zero_le (by omega : (0 : Int) ≤ resource.cols)
  obtain ⟨B, hBe⟩ := Int.eq_ofNat_of_zero_le (by omega : (0 : Int) ≤ resource.block_size.x)
  have hW' : 1 ≤ W := by omega
  have hB' : 1 ≤ B := by omega
  have hW24' : W < 2 ^ 24 := by omega
  have hB24' : B < 2 ^ 24 := by omega
  rw [num_cols_cast resource hW hx]
  unfold col_blocks
  rw [hWe, hBe, float_ceil_div_exact W B hW' hW24' hB' hB24']
  push_cast
  rw [Nat.cast_sub hW']
  simp

/-- C2 where line 265 is exact. For a resource with `1 <= W < 2 ^ 24` columns,
`H >= 1` rows and a block size with `1 <= Bx < 2 ^ 24` and `By >= 1`, the loop
nest submits `N = ((H-1)/By+1) * ((W-1)/Bx+1)` tasks, hands `total_num_blocks =
N` to each, and gives the `k`-th submitted block the index `k`. -/
theorem block_write_image_indices_below_float_limit (resource : ImageResource)
    (hW : 1 ≤ resource.cols) (hW24 : resource.cols < 2 ^ 24) (hH : 1 ≤ resource.rows)
    (hx : 1 ≤ resource.block_size.x) (hx24 : resource.block_size.x < 2 ^ 24)
    (hy : 1 ≤ resource.block_size.y) :
    ∃ (N : Nat) (blocks : List Block),
      (N : Int) = ((resource.rows - 1) / resource.block_size.y + 1) *
        ((resource.cols - 1) / resource.block_size.x + 1) ∧
      total_blocks resource resource.block_size = (N : Int) ∧
      (∀ fuel : Nat, resource.rows < fuel → resource.cols < fuel →
        block_write_image.blocks fuel resource = some blocks ∧
        block_write_image.totals fuel resource = some (List.replicate N (N : Int))) ∧
      blocks.length = N ∧
      blocks.map Block.index = (List.range N).map (fun (k : Nat) => (k : Int)) := by
  have htot := total_blocks_eq_count resource hW hH hx hy
  refine ⟨num_rows resource resource.block_size * num_cols resource resource.block_size,
    (List.range (num_rows resource resource.block_size *
      num_cols resource resource.block_size)).map (grid_block resource), ?_, htot, ?_, ?_, ?_⟩
  · push_cast
    rw [num_rows_cast resource hH hy, num_cols_cast resource hW hx]
  · intro fuel hfr hfc
    have h1 := num_rows_le resource hH hy
    have h2 := num_cols_le resource hW hx
    refine ⟨blocks_eq_grid resource hW hH hx hy fuel (by omega) (by omega), ?_⟩
    rw [totals_eq_grid resource hW hH hx hy fuel (by omega) (by omega), htot]
  · simp
  · rw [List.map_map]
    apply List.map_congr_left
    intro k _
    exact grid_block_index_exact resource hx hy (col_blocks_exact resource hW hW24 hx hx24) k

/-- The 25 x 25 resource with 10 x 10 blocks: 9 tasks with indices 0..8, the
last one of extent 5 x 5. -/
theorem block_write_image_indices_25_by_25 :
    block_write_image.blocks 30 ⟨25, 25, ⟨10, 10⟩⟩ =
      some [⟨⟨⟨0, 0⟩, ⟨10, 10⟩⟩, 0⟩, ⟨⟨⟨10, 0⟩, ⟨20, 10⟩⟩, 1⟩, ⟨⟨⟨20, 0⟩, ⟨25, 10⟩⟩, 2⟩,
        ⟨⟨⟨0, 10⟩, ⟨10, 20⟩⟩, 3⟩, ⟨⟨⟨10, 10⟩, ⟨20, 20⟩⟩, 4⟩, ⟨⟨⟨20, 10⟩, ⟨25, 20⟩⟩, 5⟩,
        ⟨⟨⟨0, 20⟩, ⟨10, 25⟩⟩, 6⟩, ⟨⟨⟨10, 20⟩, ⟨20, 25⟩⟩, 7⟩, ⟨⟨⟨20, 20⟩, ⟨25, 25⟩⟩, 8⟩] ∧
    block_write_image.totals 30 ⟨25, 25, ⟨10, 10⟩⟩ = some (List.replicate 9 9) := by
  decide

/-- C2 at the failing input, a 33554433 x 512 resource with 256 x 256 blocks.
The loop nest submits 262146 tasks and hands each the total 262146, but
`float(33554433)` is 33554432, so `col_blocks` is 131072 instead of 131073:
the blocks submitted at positions 131072 (end of the first block row) and
131073 (start of the second) are both given the index 131072. -/
theorem block_write_image_index_repeats :
    ∃ blocks : List Block,
      (∀ fuel : Nat, 33554433 < fuel →
        block_write_image.blocks fuel ⟨33554433, 512, ⟨256, 256⟩⟩ = some blocks ∧
        block_write_image.totals fuel ⟨33554433, 512, ⟨256, 256⟩⟩ =
          some (List.replicate 262146 262146)) ∧
      blocks.length = 262146 ∧
      col_blocks ⟨33554433, 512, ⟨256, 256⟩⟩ ⟨256, 256⟩ = 131072 ∧
      (blocks.map Block.index)[131072]? = some 131072 ∧
      (blocks.map Block.index)[131073]? = some 131072 := by
  have hr : num_rows ⟨33554433, 512, ⟨256, 256⟩⟩ ⟨256, 256⟩ = 2 := by decide
  have hc : num_cols ⟨33554433, 512, ⟨256, 256⟩⟩ ⟨256, 256⟩ = 131073 := by decide
  have ht : total_blocks ⟨33554433, 512, ⟨256, 256⟩⟩ ⟨256, 256⟩ = 262146 := by decide
  refine ⟨(List.range 262146).map (grid_block ⟨33554433, 512, ⟨256, 256⟩⟩), ?_, ?_, ?_, ?_, ?_⟩
  · intro fuel hf
    have hb := blocks_eq_grid ⟨33554433, 512, ⟨256, 256⟩⟩ (by decide) (by decide) (by decide)
      (by decide) fuel (by rw [hr]; omega) (by rw [hc]; omega)
    have htot := totals_eq_grid ⟨33554433, 512, ⟨256, 256⟩⟩ (by decide) (by decide) (by decide)
      (by decide) fuel (by rw [hr]; omega) (by rw [hc]; omega)
    simp only [hr, hc, ht] at hb htot
    exact ⟨hb, htot⟩
  · simp
  · decide
  · rw [List.getElem?_map, List.getElem?_map, List.getElem?_range (by omega)]
    simp only [Option.map_some', Option.some.injEq]
    decide
  · rw [List.getElem?_map, List.getElem?_map, List.getElem?_range (by omega)]
    simp only [Option.map_some', Option.some.injEq]
    decide

/-! ## C4: the contract of `CountingSemaphore::wait` -/

/-- C4. For every gate state and every index, `wait(index)` suspends the
caller if and only if `in_flight_count > max_in_flight` and
`index > last_admitted_index`; when `in_flight_count <= max_in_flight` or
`index <= last_admitted_index` it returns without suspending, changing only
`last_admitted_index`; and in every case, whatever state `resumed` a
suspended caller finds when it is woken, the state when `wait` returns has
`last_admitted_index = index`. -/
theorem wait_suspends_iff_and_sets_last (s resumed : CountingSemaphore) (job_index : Int) :
    ((s.wait job_index resumed).1 = true ↔
      (s.m_count > s.m_max ∧ job_index > s.m_last_job_index)) ∧
    ((s.m_count ≤ s.m_max ∨ job_index ≤ s.m_last_job_index) →
      s.wait job_index resumed = (false, { s with m_last_job_index := job_index })) ∧
    (s.wait job_index resumed).2.m_last_job_index = job_index := by
  unfold CountingSemaphore.wait CountingSemaphore.wait_suspends CountingSemaphore.wait_finish
  by_cases h1 : s.m_count > s.m_max <;> by_cases h2 : job_index > s.m_last_job_index <;>
    simp [h1, h2]

/-! ## Runs of the gate -/

theorem Gate.run_append (g : Gate) (ops1 ops2 : List GateOp) :
    g.run (ops1 ++ ops2) = (g.run ops1).bind (fun g1 => g1.run ops2) := by
  induction ops1 generalizing g with
  | nil => rfl
  | cons op ops ih =>
    simp only [List.cons_append, Gate.run]
    cases g.step op with
    | none => rfl
    | some g1 => exact ih g1

/-- A property kept by every step holds after every run. -/
theorem Gate.run_invariant (P : Gate → Prop)
    (hstep : ∀ g op g1, P g → g.step op = some g1 → P g1) :
    ∀ (ops : List GateOp) (g g1 : Gate), P g → g.run ops = some g1 → P g1 := by
  intro ops
  induction ops with
  | nil =>
    intro g g1 hP h
    simp only [Gate.run, Option.some.injEq] at h
    exact h ▸ hP
  | cons op ops ih =>
    intro g g1 hP h
    simp only [Gate.run] at h
    cases hs : g.step op with
    | none => simp [hs] at h
    | some g2 =>
      rw [hs] at h
      exact ih g2 g1 (hstep g op g2 hP hs) h

/-- The cases of a step, read off the state before it. -/
theorem Gate.step_cases (g g1 : Gate) (op : GateOp) (h : g.step op = some g1) :
    (∃ t job_index, op = .wait t job_index ∧ g.callers[t]? = some .idle ∧
      g.sem.wait_suspends job_index = true ∧
      g1 = { g with callers := g.callers.set t (.suspended job_index false) }) ∨
    (∃ t job_index, op = .wait t job_index ∧ g.callers[t]? = some .idle ∧
      g.sem.wait_suspends job_index = false ∧
      g1 = { sem := g.sem.wait_finish job_index
             callers := g.callers.set t
              (.cleared
                (if g.sem.m_count ≤ g.sem.m_max then
                  (if g.callers.any Caller.isCleared then .raced else .direct)
                else .bypass))
             returns := g.returns ++
              [⟨job_index, g.sem.m_count, g.sem.m_max, g.sem.m_last_job_index, false⟩] }) ∨
    (∃ t job_index, op = .wake t ∧ g.callers[t]? = some (.suspended job_index true) ∧
      g1 = { sem := g.sem.wait_finish job_index
             callers := g.callers.set t (.cleared .woken)
             returns := g.returns ++
              [⟨job_index, g.sem.m_count, g.sem.m_max, g.sem.m_last_job_index, true⟩] }) ∨
    (∃ t how, op = .enter t ∧ g.callers[t]? = some (.cleared how) ∧
      g1 = { g with sem := g.sem.enter, callers := g.callers.set t (.in_flight how) }) ∨
    (∃ t how, op = .release t ∧ g.callers[t]? = some (.in_flight how) ∧
      g1 = { g with sem := g.sem.release
                    callers := (g.callers.set t .released).map Caller.notify }) := by
  cases op with
  | wait t job_index =>
    simp only [Gate.step] at h
    split at h
    · rename_i hc
      by_cases hs : g.sem.wait_suspends job_index = true
      · left
        simp only [hs, if_true, Option.some.injEq] at h
        exact ⟨t, job_index, rfl, hc, hs, h.symm⟩
      · right; left
        simp only [Bool.not_eq_true] at hs
        simp only [hs, Bool.false_eq_true, if_false, Option.some.injEq] at h
        exact ⟨t, job_index, rfl, hc, hs, h.symm⟩
    · simp at h
  | wake t =>
    simp only [Gate.step] at h
    split at h
    · rename_i job_index hc
      right; right; left
      simp only [Option.some.injEq] at h
      exact ⟨t, job_index, rfl, hc, h.symm⟩
    · simp at h
  | enter t =>
    simp only [Gate.step] at h
    split at h
    · rename_i how hc
      right; right; right; left
      simp only [Option.some.injEq] at h
      exact ⟨t, how, rfl, hc, h.symm⟩
    · simp at h
  | release t =>
    simp only [Gate.step] at h
    split at h
    · rename_i how hc
      right; right; right; right
      simp only [Option.some.injEq] at h
      exact ⟨t, how, rfl, hc, h.symm⟩
    · simp at h

/-! ## C5: what holds when `wait` returns -/

/-- C5, counterexample. A gate with limit 1 and four callers, caller `t` using
the index `t`.  Callers 1 and 2 come through `wait` and enter; caller 0 comes
through by the bypass condition and enters, so that `m_count = 3`; caller 3
calls `wait(3)` and is suspended.  The `release()` for caller 0 leaves
`m_count = 2`, still above the limit, and notifies; caller 3 then returns
from `wait(3)` with `m_count = 2 > m_max = 1` and `3 > m_last_job_index = 0`. -/
theorem wait_returns_above_limit :
    ∃ g r, Gate.run (Gate.fresh 1 4)
        [.wait 1 1, .enter 1, .wait 2 2, .enter 2, .wait 0 0, .enter 0, .wait 3 3,
          .release 0, .wake 3] = some g ∧
      r ∈ g.returns ∧ r.job_index = 3 ∧ r.count > r.max ∧ r.job_index > r.last_before :=
  ⟨_, ⟨3, 2, 1, 0, true⟩, rfl, by decide, rfl, by decide, by decide⟩

theorem Gate.immediate_returns_step (g g1 : Gate) (op : GateOp)
    (hP : ∀ r ∈ g.returns, r.was_suspended = false →
      (r.count ≤ r.max ∨ r.job_index ≤ r.last_before))
    (h : g.step op = some g1) :
    ∀ r ∈ g1.returns, r.was_suspended = false →
      (r.count ≤ r.max ∨ r.job_index ≤ r.last_before) := by
  rcases Gate.step_cases g g1 op h with
    ⟨t, j, _, _, _, rfl⟩ | ⟨t, j, _, _, hs, rfl⟩ | ⟨t, j, _, _, rfl⟩ | ⟨t, how, _, _, rfl⟩ |
    ⟨t, how, _, _, rfl⟩
  · exact hP
  · intro r hr hw
    rcases List.mem_append.mp hr with hr | hr
    · exact hP r hr hw
    · simp only [List.mem_singleton] at hr
      subst hr
      simp only [CountingSemaphore.wait_suspends, Bool.and_eq_false_imp, decide_eq_true_eq,
        decide_eq_false_iff_not] at hs
      by_cases hc : g.sem.m_count > g.sem.m_max
      · right; have := hs hc; simp only; omega
      · left; simp only; omega
  · intro r hr hw
    rcases List.mem_append.mp hr with hr | hr
    · exact hP r hr hw
    · simp only [List.mem_singleton] at hr
      subst hr
      simp at hw
  · exact hP
  · exact hP

theorem Gate.stays_suspended_step (g g1 : Gate) (op : GateOp) (t : Nat) (job_index : Int)
    (hsus : g.callers[t]? = some (.suspended job_index false))
    (hop : op.isRelease = false) (h : g.step op = some g1) :
    g1.callers[t]? = some (.suspended job_index false) ∧ g1.returns.length ≥ g.returns.length := by
  rcases Gate.step_cases g g1 op h with
    ⟨t', j, _, hc, _, rfl⟩ | ⟨t', j, _, hc, _, rfl⟩ | ⟨t', j, _, hc, rfl⟩ |
    ⟨t', how, _, hc, rfl⟩ | ⟨t', how, rfl, _, rfl⟩
  all_goals first
    | (simp [GateOp.isRelease] at hop; done)
    | (have hne : t' ≠ t := by
        intro e; subst e; rw [hsus] at hc; simp at hc
       simp [List.getElem?_set_ne hne, hsus])

/-- C5, amended. In every run of a newly constructed gate: a return from
`wait(index)` that was not preceded by a suspension happens in a state with
`in_flight_count <= max_in_flight` or `index <= last_admitted_index`; a
suspended caller that has not been notified cannot return (its resumption
step is not enabled), and it stays suspended through any steps that contain
no `release()`.  Nothing is claimed about the counters when a caller woken by
`release()` returns. -/
theorem wait_return_condition (max : Int) (n : Nat) (ops : List GateOp) (g : Gate)
    (h : Gate.run (Gate.fresh max n) ops = some g) :
    (∀ r ∈ g.returns, r.was_suspended = false →
      (r.count ≤ r.max ∨ r.job_index ≤ r.last_before)) ∧
    (∀ (t : Nat) (job_index : Int), g.callers[t]? = some (.suspended job_index false) →
      g.step (.wake t) = none ∧
      ∀ (ops1 : List GateOp) (g1 : Gate), (∀ op ∈ ops1, op.isRelease = false) →
        g.run ops1 = some g1 → g1.callers[t]? = some (.suspended job_index false)) := by
  constructor
  · exact Gate.run_invariant
      (fun g => ∀ r ∈ g.returns, r.was_suspended = false →
        (r.count ≤ r.max ∨ r.job_index ≤ r.last_before))
      (fun g op g1 hP hs => Gate.immediate_returns_step g g1 op hP hs)
      ops (Gate.fresh max n) g (by simp [Gate.fresh]) h
  · intro t job_index hsus
    constructor
    · simp [Gate.step, hsus]
    · intro ops1
      clear h
      induction ops1 generalizing g with
      | nil =>
        intro g1 _ hrun
        simp only [Gate.run, Option.some.injEq] at hrun
        exact hrun ▸ hsus
      | cons op ops1 ih =>
        intro g1 hops hrun
        simp only [Gate.run] at hrun
        cases hs : g.step op with
        | none => simp [hs] at hrun
        | some g2 =>
          rw [hs] at hrun
          have h2 := Gate.stays_suspended_step g g2 op t job_index hsus
            (hops op (List.mem_cons_self _ _)) hs
          exact ih g2 h2.1 g1 (fun op' hop' => hops op' (List.mem_cons_of_mem _ hop')) hrun

/-- C5 amended, at the run of the counterexample cut before the `release()`. -/
theorem wait_return_condition_witness :
    (∀ r ∈ ([⟨1, 0, 1, 0, false⟩, ⟨2, 1, 1, 1, false⟩, ⟨0, 2, 1, 2, false⟩] : List WaitReturn),
      r.was_suspended = false → (r.count ≤ r.max ∨ r.job_index ≤ r.last_before)) ∧
    (∀ (t : Nat) (job_index : Int),
      ([.in_flight .bypass, .in_flight .direct, .in_flight .direct, .suspended 3 false] :
        List Caller)[t]? = some (.suspended job_index false) →
      Gate.step ⟨⟨1, 3, 0⟩,
          [.in_flight .bypass, .in_flight .direct, .in_flight .direct, .suspended 3 false],
          [⟨1, 0, 1, 0, false⟩, ⟨2, 1, 1, 1, false⟩, ⟨0, 2, 1, 2, false⟩]⟩ (.wake t) = none ∧
      ∀ (ops1 : List GateOp) (g1 : Gate), (∀ op ∈ ops1, op.isRelease = false) →
        Gate.run ⟨⟨1, 3, 0⟩,
          [.in_flight .bypass, .in_flight .direct, .in_flight .direct, .suspended 3 false],
          [⟨1, 0, 1, 0, false⟩, ⟨2, 1, 1, 1, false⟩, ⟨0, 2, 1, 2, false⟩]⟩ ops1 = some g1 →
        g1.callers[t]? = some (.suspended job_index false)) :=
  wait_return_condition 1 4
    [.wait 1 1, .enter 1, .wait 2 2, .enter 2, .wait 0 0, .enter 0, .wait 3 3]
    ⟨⟨1, 3, 0⟩, [.in_flight .bypass, .in_flight .direct, .in_flight .direct, .suspended 3 false],
      [⟨1, 0, 1, 0, false⟩, ⟨2, 1, 1, 1, false⟩, ⟨0, 2, 1, 2, false⟩]⟩ (by decide)

/-! ## C6: how far `m_count` can exceed `m_max` -/

theorem countP_set_of_getElem? {α : Type} (p : α → Bool) :
    ∀ (l : List α) (t : Nat) (a b : α), l[t]? = some a →
      List.countP p (l.set t b) + (if p a = true then 1 else 0) =
        List.countP p l + (if p b = true then 1 else 0) := by
  intro l
  induction l with
  | nil => intro t a b h; simp at h
  | cons x xs ih =>
    intro t a b h
    cases t with
    | zero =>
      simp only [List.getElem?_cons_zero, Option.some.injEq] at h
      subst h
      simp only [List.set_cons_zero, List.countP_cons]
      omega
    | succ t =>
      simp only [List.getElem?_cons_succ] at h
      have := ih t a b h
      simp only [List.set_cons_succ, List.countP_cons]
      omega

theorem countP_map_notify (p : Caller → Bool) (hp : ∀ c, p (Caller.notify c) = p c)
    (l : List Caller) : List.countP p (l.map Caller.notify) = List.countP p l := by
  rw [List.countP_map]
  congr 1
  funext c
  exact hp c

theorem inFlightBy_notify (p : Passage → Bool) (c : Caller) :
    Caller.inFlightBy p (Caller.notify c) = Caller.inFlightBy p c := by
  cases c <;> rfl

theorem clearedBy_notify (p : Passage → Bool) (c : Caller) :
    Caller.clearedBy p (Caller.notify c) = Caller.clearedBy p c := by
  cases c <;> rfl

/-- In-flight callers split into those that came through directly and the
others. -/
theorem inFlight_split (l : List Caller) :
    List.countP (Caller.inFlightBy (fun _ => true)) l =
      List.countP (Caller.inFlightBy (fun how => decide (how = Passage.direct))) l +
      List.countP (Caller.inFlightBy (fun how => decide (how ≠ Passage.direct))) l := by
  induction l with
  | nil => rfl
  | cons c cs ih =>
    simp only [List.countP_cons, ih]
    cases c with
    | in_flight how => cases how <;> simp [Caller.inFlightBy] <;> omega
    | _ => simp [Caller.inFlightBy]

theorem clearedBy_direct_zero (l : List Caller) (h : l.any Caller.isCleared = false) :
    List.countP (Caller.clearedBy (fun how => decide (how = Passage.direct))) l = 0 := by
  rw [List.countP_eq_zero]
  intro c hc
  have := (List.any_eq_false.mp h) c hc
  cases c <;> simp_all [Caller.clearedBy, Caller.isCleared]

theorem Gate.accounted_fresh (M : Int) (hM : 0 ≤ M) (n : Nat) :
    Gate.Accounted M (Gate.fresh M n) := by
  simp only [Gate.Accounted, Gate.fresh, CountingSemaphore.ofMax, List.countP_replicate,
    Caller.inFlightBy, Caller.clearedBy]
  simp
  omega

theorem Gate.accounted_step (M : Int) (g g1 : Gate) (op : GateOp)
    (hP : Gate.Accounted M g) (h : g.step op = some g1) : Gate.Accounted M g1 := by
  obtain ⟨hmax, hcount, hdirect⟩ := hP
  rcases Gate.step_cases g g1 op h with
    ⟨t, j, _, hc, _, rfl⟩ | ⟨t, j, _, hc, hs, rfl⟩ | ⟨t, j, _, hc, rfl⟩ |
    ⟨t, how, _, hc, rfl⟩ | ⟨t, how, _, hc, rfl⟩
  · -- `wait` suspends
    have e1 := countP_set_of_getElem? (Caller.inFlightBy (fun _ => true)) g.callers t _
      (.suspended j false) hc
    have e2 := countP_set_of_getElem?
      (Caller.inFlightBy (fun how => decide (how = Passage.direct))) g.callers t _
      (.suspended j false) hc
    have e3 := countP_set_of_getElem?
      (Caller.clearedBy (fun how => decide (how = Passage.direct))) g.callers t _
      (.suspended j false) hc
    simp only [Caller.inFlightBy, Caller.clearedBy, Bool.false_eq_true, if_false,
      Nat.add_zero] at e1 e2 e3
    refine ⟨hmax, ?_, ?_⟩
    · simp only [e1]; exact hcount
    · simp only [e2, e3]; exact hdirect
  · -- `wait` returns at once
    have e1 := countP_set_of_getElem? (Caller.inFlightBy (fun _ => true)) g.callers t _
      (.cleared (if g.sem.m_count ≤ g.sem.m_max then
          (if g.callers.any Caller.isCleared then .raced else .direct) else .bypass)) hc
    have e2 := countP_set_of_getElem?
      (Caller.inFlightBy (fun how => decide (how = Passage.direct))) g.callers t _
      (.cleared (if g.sem.m_count ≤ g.sem.m_max then
          (if g.callers.any Caller.isCleared then .raced else .direct) else .bypass)) hc
    have e3 := countP_set_of_getElem?
      (Caller.clearedBy (fun how => decide (how = Passage.direct))) g.callers t _
      (.cleared (if g.sem.m_count ≤ g.sem.m_max then
          (if g.callers.any Caller.isCleared then .raced else .direct) else .bypass)) hc
    simp only [Caller.inFlightBy, Caller.clearedBy, Bool.false_eq_true, if_false,
      Nat.add_zero] at e1 e2 e3
    refine ⟨hmax, ?_, ?_⟩
    · simp only [CountingSemaphore.wait_finish, e1]; exact hcount
    · simp only [e2]
      by_cases hle : g.sem.m_count ≤ g.sem.m_max
      · by_cases hany : g.callers.any Caller.isCleared = true
        · simp only [hle, hany, if_true] at e3 ⊢
          simp only [decide_eq_true_eq, reduceCtorEq, if_false, Nat.add_zero] at e3
          rw [e3]; exact hdirect
        · simp only [Bool.not_eq_true] at hany
          have hz := clearedBy_direct_zero g.callers hany
          simp only [hle, hany, if_true, Bool.false_eq_true, if_false] at e3 ⊢
          simp only [decide_True, if_true, hz] at e3
          have hsplit := inFlight_split g.callers
          rw [e3]
          push_cast
          have : ((List.countP (Caller.inFlightBy (fun how => decide (how = Passage.direct)))
              g.callers : Nat) : Int) ≤ g.sem.m_count := by
            rw [hcount]; exact_mod_cast (by omega)
          omega
      · simp only [hle, if_false] at e3 ⊢
        simp only [decide_eq_true_eq, reduceCtorEq, if_false, Nat.add_zero] at e3
        rw [e3]; exact hdirect
  · -- a woken caller returns
    have e1 := countP_set_of_getElem? (Caller.inFlightBy (fun _ => true)) g.callers t _
      (.cleared .woken) hc
    have e2 := countP_set_of_getElem?
      (Caller.inFlightBy (fun how => decide (how = Passage.direct))) g.callers t _
      (.cleared .woken) hc
    have e3 := countP_set_of_getElem?
      (Caller.clearedBy (fun how => decide (how = Passage.direct))) g.callers t _
      (.cleared .woken) hc
    simp only [Caller.inFlightBy, Caller.clearedBy, Bool.false_eq_true, if_false,
      Nat.add_zero, decide_eq_true_eq, reduceCtorEq] at e1 e2 e3
    refine ⟨hmax, ?_, ?_⟩
    · simp only [CountingSemaphore.wait_finish, e1]; exact hcount
    · simp only [e2, e3]; exact hdirect
  · -- `enter`
    have e1 := countP_set_of_getElem? (Caller.inFlightBy (fun _ => true)) g.callers t _
      (.in_flight how) hc
    have e2 := countP_set_of_getElem?
      (Caller.inFlightBy (fun how => decide (how = Passage.direct))) g.callers t _
      (.in_flight how) hc
    have e3 := countP_set_of_getElem?
      (Caller.clearedBy (fun how => decide (how = Passage.direct))) g.callers t _
      (.in_flight how) hc
    simp only [Caller.inFlightBy, Caller.clearedBy, Bool.false_eq_true, if_false,
      Nat.add_zero, if_true] at e1 e2 e3
    refine ⟨hmax, ?_, ?_⟩
    · simp only [CountingSemaphore.enter, e1, hcount]; push_cast; ring
    · by_cases hd : how = Passage.direct
      · simp only [hd, decide_True, if_true] at e2 e3
        have : List.countP (Caller.inFlightBy (fun how => decide (how = Passage.direct)))
            (g.callers.set t (.in_flight how)) +
          List.countP (Caller.clearedBy (fun how => decide (how = Passage.direct)))
            (g.callers.set t (.in_flight how)) =
          List.countP (Caller.inFlightBy (fun how => decide (how = Passage.direct))) g.callers +
          List.countP (Caller.clearedBy (fun how => decide (how = Passage.direct))) g.callers := by
          rw [hd]; omega
        simp only [this]; exact hdirect
      · simp only [hd, decide_False, Bool.false_eq_true, if_false, Nat.add_zero] at e2 e3
        simp only [e2, e3]; exact hdirect
  · -- `release`
    have e1 := countP_set_of_getElem? (Caller.inFlightBy (fun _ => true)) g.callers t _
      .released hc
    have e2 := countP_set_of_getElem?
      (Caller.inFlightBy (fun how => decide (how = Passage.direct))) g.callers t _
      .released hc
    have e3 := countP_set_of_getElem?
      (Caller.clearedBy (fun how => decide (how = Passage.direct))) g.callers t _
      .released hc
    simp only [Caller.inFlightBy, Caller.clearedBy, Bool.false_eq_true, if_false,
      Nat.add_zero, if_true] at e1 e2 e3
    refine ⟨hmax, ?_, ?_⟩
    · simp only [CountingSemaphore.release,
        countP_map_notify _ (inFlightBy_notify _), hcount]
      omega
    · simp only [countP_map_notify _ (inFlightBy_notify _),
        countP_map_notify _ (clearedBy_notify _), e3]
      have : List.countP (Caller.inFlightBy (fun how => decide (how = Passage.direct)))
          (g.callers.set t .released) ≤
        List.countP (Caller.inFlightBy (fun how => decide (how = Passage.direct))) g.callers := by
        omega
      have h2 : ((List.countP (Caller.inFlightBy (fun how => decide (how = Passage.direct)))
          (g.callers.set t .released) : Nat) : Int) ≤
        ((List.countP (Caller.inFlightBy (fun how => decide (how = Passage.direct)))
          g.callers : Nat) : Int) := by exact_mod_cast this
      push_cast at hdirect ⊢
      omega

theorem getElem?_set_cases {α : Type} (l : List α) (t t1 : Nat) (b c : α)
    (h : (l.set t b)[t1]? = some c) : (t1 = t ∧ c = b) ∨ (t1 ≠ t ∧ l[t1]? = some c) := by
  by_cases e : t = t1
  · subst e
    left
    rw [List.getElem?_set] at h
    simp only [if_true] at h
    split at h
    · simp only [Option.some.injEq] at h
      exact ⟨rfl, h.symm⟩
    · simp at h
  · right
    rw [List.getElem?_set_ne e] at h
    exact ⟨fun e1 => e e1.symm, h⟩

theorem notify_eq_cleared (c : Caller) (how : Passage) (h : Caller.notify c = .cleared how) :
    c = .cleared how := by
  cases c <;> simp_all [Caller.notify]

theorem notify_eq_in_flight (c : Caller) (how : Passage)
    (h : Caller.notify c = .in_flight how) : c = .in_flight how := by
  cases c <;> simp_all [Caller.notify]

theorem notify_eq_suspended (c : Caller) (j : Int) (b : Bool)
    (h : Caller.notify c = .suspended j b) : ∃ b0, c = .suspended j b0 := by
  cases c <;> simp_all [Caller.notify]

theorem Gate.wasSuspended_append (M : Int) (n : Nat) (ops : List GateOp) (t : Nat) (j : Int)
    (b : Bool) (op : GateOp) (h : Gate.WasSuspended M n ops t j b) :
    Gate.WasSuspended M n (ops ++ [op]) t j b := by
  obtain ⟨ops1, ops2, g0, e, hr, hs, hn⟩ := h
  refine ⟨ops1, ops2 ++ [op], g0, by rw [e]; simp, hr, hs, ?_⟩
  intro hb
  obtain ⟨t1, ht1⟩ := hn hb
  exact ⟨t1, List.mem_append_left _ ht1⟩

theorem Gate.wasSuspended_release (M : Int) (n : Nat) (ops : List GateOp) (t : Nat) (j : Int)
    (b b1 : Bool) (t1 : Nat) (h : Gate.WasSuspended M n ops t j b) :
    Gate.WasSuspended M n (ops ++ [.release t1]) t j b1 := by
  obtain ⟨ops1, ops2, g0, e, hr, hs, _⟩ := h
  refine ⟨ops1, ops2 ++ [.release t1], g0, by rw [e]; simp, hr, hs, ?_⟩
  intro _
  exact ⟨t1, List.mem_append_right _ (List.mem_singleton.mpr rfl)⟩

theorem Gate.cameThrough_append (M : Int) (n : Nat) (ops : List GateOp) (t : Nat)
    (how : Passage) (op : GateOp) (h : Gate.CameThrough M n ops t how) :
    Gate.CameThrough M n (ops ++ [op]) t how := by
  obtain ⟨ops1, op0, ops2, g0, e, hr, hj, hw⟩ := h
  exact ⟨ops1, op0, ops2 ++ [op], g0, by rw [e]; simp, hr, hj, hw⟩

theorem Gate.recorded_fresh (M : Int) (n : Nat) : Gate.Recorded M n [] (Gate.fresh M n) := by
  have hidle : ∀ (t : Nat) (c : Caller), (Gate.fresh M n).callers[t]? = some c →
      c = Caller.idle := by
    intro t c h
    simp only [Gate.fresh, List.getElem?_replicate] at h
    split at h
    · simp only [Option.some.injEq] at h
      exact h.symm
    · simp at h
  constructor
  · intro t j b h
    have := hidle t _ h
    simp at this
  · intro t how h
    rcases h with h | h
    · have h2 := hidle t _ h
      simp at h2
    · have h2 := hidle t _ h
      simp at h2

theorem Gate.recorded_step (M : Int) (n : Nat) (ops : List GateOp) (g g1 : Gate) (op : GateOp)
    (hrun : Gate.run (Gate.fresh M n) ops = some g)
    (hP : Gate.Recorded M n ops g) (h : g.step op = some g1) :
    Gate.Recorded M n (ops ++ [op]) g1 := by
  obtain ⟨hS, hH⟩ := hP
  rcases Gate.step_cases g g1 op h with
    ⟨t, j, rfl, hc, hs, rfl⟩ | ⟨t, j, rfl, hc, hs, rfl⟩ | ⟨t, j, rfl, hc, rfl⟩ |
    ⟨t, how0, rfl, hc, rfl⟩ | ⟨t, how0, rfl, hc, rfl⟩
  · -- `wait` suspends
    constructor
    · intro t1 j1 b1 h1
      rcases getElem?_set_cases _ _ _ _ _ h1 with ⟨rfl, e⟩ | ⟨_, e⟩
      · simp only [Caller.suspended.injEq] at e
        obtain ⟨rfl, rfl⟩ := e
        exact ⟨ops, [], g, rfl, hrun, hs, by simp⟩
      · exact Gate.wasSuspended_append M n ops t1 j1 b1 _ (hS t1 j1 b1 e)
    · intro t1 how h1
      rcases h1 with h1 | h1
      · rcases getElem?_set_cases _ _ _ _ _ h1 with ⟨_, e⟩ | ⟨_, e⟩
        · simp at e
        · exact Gate.cameThrough_append M n ops t1 how _ (hH t1 how (Or.inl e))
      · rcases getElem?_set_cases _ _ _ _ _ h1 with ⟨_, e⟩ | ⟨_, e⟩
        · simp at e
        · exact Gate.cameThrough_append M n ops t1 how _ (hH t1 how (Or.inr e))
  · -- `wait` returns at once
    constructor
    · intro t1 j1 b1 h1
      rcases getElem?_set_cases _ _ _ _ _ h1 with ⟨_, e⟩ | ⟨_, e⟩
      · simp at e
      · exact Gate.wasSuspended_append M n ops t1 j1 b1 _ (hS t1 j1 b1 e)
    · intro t1 how h1
      rcases h1 with h1 | h1
      · rcases getElem?_set_cases _ _ _ _ _ h1 with ⟨rfl, e⟩ | ⟨_, e⟩
        · simp only [Caller.cleared.injEq] at e
          refine ⟨ops, .wait t1 j, [], g, rfl, hrun, ?_, ?_⟩
          · simp only [CountingSemaphore.wait_suspends, Bool.and_eq_false_imp,
              decide_eq_true_eq, decide_eq_false_iff_not] at hs
            by_cases hle : g.sem.m_count ≤ g.sem.m_max
            · by_cases hany : g.callers.any Caller.isCleared = true
              · simp only [hle, hany, if_true] at e
                subst e
                simp [Passage.justified, hle, hany]
              · simp only [Bool.not_eq_true] at hany
                simp only [hle, hany, if_true, Bool.false_eq_true, if_false] at e
                subst e
                simp [Passage.justified, hle, hany]
            · simp only [hle, if_false] at e
              subst e
              have hgt : g.sem.m_count > g.sem.m_max := by omega
              have hj : j ≤ g.sem.m_last_job_index := by
                have := hs hgt
                omega
              simp [Passage.justified, hgt, hj]
          · intro hw
            rw [hw] at e
            by_cases hle : g.sem.m_count ≤ g.sem.m_max
            · by_cases hany : g.callers.any Caller.isCleared = true
              · simp [hle, hany] at e
              · simp [hle, hany] at e
            · simp [hle] at e
        · exact Gate.cameThrough_append M n ops t1 how _ (hH t1 how (Or.inl e))
      · rcases getElem?_set_cases _ _ _ _ _ h1 with ⟨_, e⟩ | ⟨_, e⟩
        · simp at e
        · exact Gate.cameThrough_append M n ops t1 how _ (hH t1 how (Or.inr e))
  · -- a woken caller returns
    constructor
    · intro t1 j1 b1 h1
      rcases getElem?_set_cases _ _ _ _ _ h1 with ⟨_, e⟩ | ⟨_, e⟩
      · simp at e
      · exact Gate.wasSuspended_append M n ops t1 j1 b1 _ (hS t1 j1 b1 e)
    · intro t1 how h1
      rcases h1 with h1 | h1
      · rcases getElem?_set_cases _ _ _ _ _ h1 with ⟨rfl, e⟩ | ⟨_, e⟩
        · simp only [Caller.cleared.injEq] at e
          subst e
          refine ⟨ops, .wake t1, [], g, rfl, hrun, ?_, ?_⟩
          · simp [Passage.justified, hc]
          · intro _
            exact ⟨j, hS t1 j true hc⟩
        · exact Gate.cameThrough_append M n ops t1 how _ (hH t1 how (Or.inl e))
      · rcases getElem?_set_cases _ _ _ _ _ h1 with ⟨_, e⟩ | ⟨_, e⟩
        · simp at e
        · exact Gate.cameThrough_append M n ops t1 how _ (hH t1 how (Or.inr e))
  · -- `enter`
    constructor
    · intro t1 j1 b1 h1
      rcases getElem?_set_cases _ _ _ _ _ h1 with ⟨_, e⟩ | ⟨_, e⟩
      · simp at e
      · exact Gate.wasSuspended_append M n ops t1 j1 b1 _ (hS t1 j1 b1 e)
    · intro t1 how h1
      rcases h1 with h1 | h1
      · rcases getElem?_set_cases _ _ _ _ _ h1 with ⟨_, e⟩ | ⟨_, e⟩
        · simp at e
        · exact Gate.cameThrough_append M n ops t1 how _ (hH t1 how (Or.inl e))
      · rcases getElem?_set_cases _ _ _ _ _ h1 with ⟨rfl, e⟩ | ⟨_, e⟩
        · simp only [Caller.in_flight.injEq] at e
          subst e
          exact Gate.cameThrough_append M n ops t1 how _ (hH t1 how (Or.inl hc))
        · exact Gate.cameThrough_append M n ops t1 how _ (hH t1 how (Or.inr e))
  · -- `release`
    have hmap : ∀ (t1 : Nat) (c : Caller),
        ((g.callers.set t .released).map Caller.notify)[t1]? = some c →
        ∃ c0, Caller.notify c0 = c ∧ (g.callers.set t .released)[t1]? = some c0 := by
      intro t1 c h1
      rw [List.getElem?_map] at h1
      cases hx : (g.callers.set t .released)[t1]? with
      | none => rw [hx] at h1; simp at h1
      | some c0 =>
        rw [hx] at h1
        simp only [Option.map_some', Option.some.injEq] at h1
        exact ⟨c0, h1, rfl⟩
    constructor
    · intro t1 j1 b1 h1
      obtain ⟨c0, hn, h0⟩ := hmap t1 _ h1
      obtain ⟨b0, rfl⟩ := notify_eq_suspended c0 j1 b1 hn
      rcases getElem?_set_cases _ _ _ _ _ h0 with ⟨_, e⟩ | ⟨_, e⟩
      · simp at e
      · exact Gate.wasSuspended_release M n ops t1 j1 b0 b1 t (hS t1 j1 b0 e)
    · intro t1 how h1
      rcases h1 with h1 | h1
      · obtain ⟨c0, hn, h0⟩ := hmap t1 _ h1
        have := notify_eq_cleared c0 how hn
        subst this
        rcases getElem?_set_cases _ _ _ _ _ h0 with ⟨_, e⟩ | ⟨_, e⟩
        · simp at e
        · exact Gate.cameThrough_append M n ops t1 how _ (hH t1 how (Or.inl e))
      · obtain ⟨c0, hn, h0⟩ := hmap t1 _ h1
        have := notify_eq_in_flight c0 how hn
        subst this
        rcases getElem?_set_cases _ _ _ _ _ h0 with ⟨_, e⟩ | ⟨_, e⟩
        · simp at e
        · exact Gate.cameThrough_append M n ops t1 how _ (hH t1 how (Or.inr e))

/-- Every run of a new gate keeps the history of its callers. -/
theorem Gate.recorded_run (M : Int) (n : Nat) :
    ∀ (ops : List GateOp) (g : Gate), Gate.run (Gate.fresh M n) ops = some g →
      Gate.Recorded M n ops g := by
  intro ops
  induction ops using List.reverseRecOn with
  | nil =>
    intro g h
    simp only [Gate.run, Option.some.injEq] at h
    exact h ▸ Gate.recorded_fresh M n
  | append_singleton ops op ih =>
    intro g h
    rw [Gate.run_append] at h
    cases hr : Gate.run (Gate.fresh M n) ops with
    | none => rw [hr] at h; simp at h
    | some g0 =>
      rw [hr] at h
      simp only [Option.some_bind, Gate.run] at h
      cases hs : g0.step op with
      | none => rw [hs] at h; simp at h
      | some g1 =>
        rw [hs] at h
        simp only [Option.some.injEq] at h
        subst h
        exact Gate.recorded_step M n ops g0 g1 op hr (ih g0 hr) hs

/-- C6, counterexample. A new gate with limit 1 and three callers, caller `t`
using the index `t`: caller 1 calls `wait(1)` and enters, then caller 2 calls
`wait(2)` and enters.  At both tests `m_count <= m_max` and the index is
above `m_last_job_index`, so neither caller passes by the bypass condition;
yet afterwards `m_count = 2` exceeds `m_max = 1`. -/
theorem count_exceeds_limit_without_bypass :
    ∃ g, Gate.run (Gate.fresh 1 3) [.wait 1 1, .enter 1, .wait 2 2, .enter 2] = some g ∧
      g.sem.m_count = 2 ∧ g.sem.m_max = 1 ∧
      (∀ r ∈ g.returns, r.count ≤ r.max ∧ r.job_index > r.last_before) ∧
      g.inFlight (fun how => decide (how = Passage.bypass)) = 0 ∧
      ¬ (g.sem.m_count ≤ g.sem.m_max +
          (g.inFlight (fun how => decide (how = Passage.bypass)) : Int)) :=
  ⟨_, rfl, rfl, rfl, by decide, by decide, by decide⟩

/-- A run in which the excess comes from a race: with limit 1, three callers
pass the test of `wait` while `m_count = 0` and enter afterwards; then
`m_count = 3` although no caller passed by the bypass condition or was
woken. -/
theorem count_exceeds_limit_by_race :
    ∃ g, Gate.run (Gate.fresh 1 3)
        [.wait 0 0, .wait 1 1, .wait 2 2, .enter 0, .enter 1, .enter 2] = some g ∧
      g.sem.m_count = 3 ∧ g.sem.m_max = 1 ∧
      g.callers = [.in_flight .direct, .in_flight .raced, .in_flight .raced] :=
  ⟨_, rfl, rfl, rfl, rfl⟩

/-- A run in which the excess comes from wake-ups: with limit 1, callers 0 and
1 are in flight, callers 2 and 3 are suspended in `wait`; one `release()` wakes
both, and both enter; then `m_count = 3` although no caller passed by the
bypass condition. -/
theorem count_exceeds_limit_by_wake_up :
    ∃ g, Gate.run (Gate.fresh 1 4)
        [.wait 0 0, .enter 0, .wait 1 1, .enter 1, .wait 2 2, .wait 3 3, .release 0,
          .wake 2, .enter 2, .wake 3, .enter 3] = some g ∧
      g.sem.m_count = 3 ∧ g.sem.m_max = 1 ∧
      g.callers = [.released, .in_flight .direct, .in_flight .woken, .in_flight .woken] :=
  ⟨_, rfl, rfl, rfl, rfl⟩

/-- C6, amended. In every sequence of gate operations that starts from a new
`CountingSemaphore` with `max_in_flight = M >= 0`, where each caller goes
through `wait(index)`, then `enter()`, and is released at most once
afterwards, `in_flight_count` never exceeds `max_in_flight + 1` by more than
the number of in-flight callers that did not come through `wait` directly,
that is with `in_flight_count <= max_in_flight` and no other caller between
its `wait` and its `enter`: those that passed by the bypass condition, those
woken from a suspension, and those that passed while another caller was
between `wait` and `enter`.  Without any such caller in flight,
`in_flight_count` never exceeds `max_in_flight + 1`.  The kind of each caller
in flight is the one of the step by which it returned from `wait`, judged on
the counters of the state that step was taken in: `in_flight_count` against
`max_in_flight`, the index against `last_admitted_index`, and whether another
caller was between `wait` and `enter`; a woken caller had suspended at a true
test and a `release()` came before its return. -/
theorem count_bound (M : Int) (hM : 0 ≤ M) (n : Nat) (ops : List GateOp) (g : Gate)
    (h : Gate.run (Gate.fresh M n) ops = some g) :
    g.sem.m_max = M ∧
    g.sem.m_count ≤ g.sem.m_max + 1 +
      (g.inFlight (fun how => decide (how ≠ Passage.direct)) : Int) ∧
    (g.inFlight (fun how => decide (how ≠ Passage.direct)) = 0 →
      g.sem.m_count ≤ g.sem.m_max + 1) ∧
    (∀ (t : Nat) (how : Passage), g.callers[t]? = some (.in_flight how) →
      Gate.CameThrough M n ops t how) := by
  obtain ⟨hmax, hcount, hdirect⟩ := Gate.run_invariant (Gate.Accounted M)
    (fun g op g1 hP hs => Gate.accounted_step M g g1 op hP hs)
    ops (Gate.fresh M n) g (Gate.accounted_fresh M hM n) h
  have hsplit := inFlight_split g.callers
  have hbound : g.sem.m_count ≤ g.sem.m_max + 1 +
      (g.inFlight (fun how => decide (how ≠ Passage.direct)) : Int) := by
    unfold Gate.inFlight
    rw [hcount, hsplit, hmax]
    push_cast at hdirect ⊢
    have : (0 : Int) ≤ (List.countP
      (Caller.clearedBy (fun how => decide (how = Passage.direct))) g.callers : Nat) :=
      Int.ofNat_nonneg _
    omega
  refine ⟨hmax, hbound, ?_, ?_⟩
  · intro hz
    rw [hz] at hbound
    simpa using hbound
  · intro t how ht
    exact (Gate.recorded_run M n ops g h).2 t how (Or.inr ht)

/-- C6 amended, at a run with a bypass: limit 1, callers 1 and 2 pass `wait`
with indices 1 and 2 and enter; caller 0 then passes `wait(0)` by the bypass
condition and enters. -/
theorem count_bound_witness :
    (0 : Int) ≤ 1 ∧
    Gate.run (Gate.fresh 1 3) [.wait 1 1, .enter 1, .wait 2 2, .enter 2, .wait 0 0, .enter 0] =
      some ⟨⟨1, 3, 0⟩, [.in_flight .bypass, .in_flight .direct, .in_flight .direct],
        [⟨1, 0, 1, 0, false⟩, ⟨2, 1, 1, 1, false⟩, ⟨0, 2, 1, 2, false⟩]⟩ ∧
    ((1 : Int) = 1 ∧
     (3 : Int) ≤ 1 + 1 +
       ((Gate.inFlight ⟨⟨1, 3, 0⟩, [.in_flight .bypass, .in_flight .direct, .in_flight .direct],
        [⟨1, 0, 1, 0, false⟩, ⟨2, 1, 1, 1, false⟩, ⟨0, 2, 1, 2, false⟩]⟩
          (fun how => decide (how ≠ Passage.direct)) : Nat) : Int) ∧
     (Gate.inFlight ⟨⟨1, 3, 0⟩, [.in_flight .bypass, .in_flight .direct, .in_flight .direct],
        [⟨1, 0, 1, 0, false⟩, ⟨2, 1, 1, 1, false⟩, ⟨0, 2, 1, 2, false⟩]⟩
          (fun how => decide (how ≠ Passage.direct)) = 0 → (3 : Int) ≤ 1 + 1) ∧
     (∀ (t : Nat) (how : Passage),
       ([.in_flight .bypass, .in_flight .direct, .in_flight .direct] : List Caller)[t]? =
         some (.in_flight how) →
       Gate.CameThrough 1 3
         [.wait 1 1, .enter 1, .wait 2 2, .enter 2, .wait 0 0, .enter 0] t how)) :=
  ⟨by decide, by decide,
    count_bound 1 (by decide) 3
      [.wait 1 1, .enter 1, .wait 2 2, .enter 2, .wait 0 0, .enter 0]
      ⟨⟨1, 3, 0⟩, [.in_flight .bypass, .in_flight .direct, .in_flight .direct],
        [⟨1, 0, 1, 0, false⟩, ⟨2, 1, 1, 1, false⟩, ⟨0, 2, 1, 2, false⟩]⟩ (by decide)⟩

/-! ## C7: `release()` in `WriteBlockTask::operator()` -/

/-- C7, counterexample. When `m_resource.write` raises, the exception leaves
`WriteBlockTask::operator()` before `release()`: no `release()` is called and
`m_count` stays 3. -/
theorem write_task_skips_release_on_error :
    WriteBlockTask.call (Except.error "write failed" : Except String Unit) ⟨1, 3, 0⟩ =
      (Except.error "write failed", ⟨1, 3, 0⟩) ∧
    WriteBlockTask.releases (Except.error "write failed" : Except String Unit) = 0 ∧
    ¬ ((WriteBlockTask.call (Except.error "write failed" : Except String Unit)
        ⟨1, 3, 0⟩).2.m_count = 3 - 1) :=
  ⟨rfl, rfl, by decide⟩

/-- C7, amended. `WriteBlockTask::operator()` calls `release()` on the gate
exactly once when the resource's write returns normally: for every gate
state, `in_flight_count` after the task has run is then one less than before
it ran, and the other counters are unchanged. -/
theorem write_task_release {ε : Type} (sem : CountingSemaphore) :
    WriteBlockTask.call (Except.ok () : Except ε Unit) sem =
      (Except.ok (), { sem with m_count := sem.m_count - 1 }) ∧
    WriteBlockTask.releases (Except.ok () : Except ε Unit) = 1 :=
  ⟨rfl, rfl⟩

/-! ## C3: order of the writes -/

theorem ThreadedBlockWriter.consistent_gate_step (tasks : List Block) (w : ThreadedBlockWriter)
    (g : Gate) (hP : ThreadedBlockWriter.Consistent tasks w) :
    ThreadedBlockWriter.Consistent tasks { w with m_write_queue_limit := g } := hP

theorem write_image.cols_loop_error (resource : ImageResource) (block_size : Vector2i)
    (total : Int) (abort : Nat → Bool) (j : Int) :
    ∀ (fuel : Nat) (i : Int) (trace : List Event) (queries : Nat) (r : List Event × Outcome),
      write_image.cols_loop fuel resource block_size total abort j i trace queries = .error r →
      r.2 = Outcome.threw Exception.Aborted ∨ r.2 = Outcome.out_of_fuel := by
  intro fuel
  induction fuel with
  | zero =>
    intro i trace queries r h
    simp only [write_image.cols_loop, Except.error.injEq] at h
    exact Or.inr (h ▸ rfl)
  | succ fuel ih =>
    intro i trace queries r h
    simp only [write_image.cols_loop] at h
    split at h
    · split at h
      · simp only [Except.error.injEq] at h
        exact Or.inl (h ▸ rfl)
      · exact ih _ _ _ r h
    · simp at h

theorem write_image.rows_loop_error (resource : ImageResource) (block_size : Vector2i)
    (total : Int) (abort : Nat → Bool) (inner : Nat) :
    ∀ (fuel : Nat) (j : Int) (trace : List Event) (queries : Nat) (r : List Event × Outcome),
      write_image.rows_loop fuel inner resource block_size total abort j trace queries =
        .error r →
      r.2 = Outcome.threw Exception.Aborted ∨ r.2 = Outcome.out_of_fuel := by
  intro fuel
  induction fuel with
  | zero =>
    intro j trace queries r h
    simp only [write_image.rows_loop, Except.error.injEq] at h
    exact Or.inr (h ▸ rfl)
  | succ fuel ih =>
    intro j trace queries r h
    simp only [write_image.rows_loop] at h
    split at h
    · split at h
      · rename_i r1 hc
        simp only [Except.error.injEq] at h
        exact h ▸ write_image.cols_loop_error resource block_size total abort j inner 0 trace
          queries r1 hc
      · exact ih _ _ _ r h
    · simp at h

theorem block_write_image_of_nonempty (fuel : Nat) (resource : ImageResource)
    (image : ImageShape) (abort : Nat → Bool)
    (hne : image.cols ≠ 0 ∧ image.rows ≠ 0 ∧ image.planes ≠ 0) :
    block_write_image fuel resource image abort =
      if abort 0 then
        ([Event.report_progress 0 1, Event.abort_requested (abort 0)],
          Outcome.threw Exception.Aborted)
      else
        match block_write_image.rows_loop fuel fuel resource resource.block_size
            (total_blocks resource resource.block_size) 0
            [Event.report_progress 0 1, Event.abort_requested (abort 0)] with
        | none =>
          ([Event.report_progress 0 1, Event.abort_requested (abort 0)], Outcome.out_of_fuel)
        | some trace1 =>
          (trace1 ++ [Event.process_blocks, Event.report_finished], Outcome.returned) := by
  unfold block_write_image
  rw [if_pos hne]

theorem write_image_of_nonempty (fuel : Nat) (resource : ImageResource)
    (image : ImageShape) (abort : Nat → Bool)
    (hne : image.cols ≠ 0 ∧ image.rows ≠ 0 ∧ image.planes ≠ 0) :
    write_image fuel resource image abort =
      match write_image.rows_loop fuel fuel resource resource.block_size
          (total_blocks resource resource.block_size) abort 0 [Event.report_progress 0 1] 0 with
      | .error r => r
      | .ok (trace1, _) => (trace1 ++ [Event.report_finished], Outcome.returned) := by
  unfold write_image
  rw [if_pos hne]

theorem block_write_image_of_empty (fuel : Nat) (resource : ImageResource)
    (image : ImageShape) (abort : Nat → Bool)
    (hne : ¬ (image.cols ≠ 0 ∧ image.rows ≠ 0 ∧ image.planes ≠ 0)) :
    block_write_image fuel resource image abort = ([], Outcome.threw Exception.ArgumentErr) := by
  unfold block_write_image
  rw [if_neg hne]

theorem write_image_of_empty (fuel : Nat) (resource : ImageResource)
    (image : ImageShape) (abort : Nat → Bool)
    (hne : ¬ (image.cols ≠ 0 ∧ image.rows ≠ 0 ∧ image.planes ≠ 0)) :
    write_image fuel resource image abort = ([], Outcome.threw Exception.ArgumentErr) := by
  unfold write_image
  rw [if_neg hne]

/-- C8. `block_write_image` and `write_image` fail with `ArgumentErr` if and
only if the image has `cols = 0`, `rows = 0` or `planes = 0`; and in that
case the trace of calls on the collaborators is empty: no progress report,
no abort query, no block submitted and no write to the resource. -/
theorem argument_error_iff_empty_image (fuel : Nat) (resource : ImageResource)
    (image : ImageShape) (abort : Nat → Bool) :
    ((block_write_image fuel resource image abort).2 = Outcome.threw Exception.ArgumentErr ↔
      (image.cols = 0 ∨ image.rows = 0 ∨ image.planes = 0)) ∧
    ((write_image fuel resource image abort).2 = Outcome.threw Exception.ArgumentErr ↔
      (image.cols = 0 ∨ image.rows = 0 ∨ image.planes = 0)) ∧
    ((image.cols = 0 ∨ image.rows = 0 ∨ image.planes = 0) →
      block_write_image fuel resource image abort = ([], Outcome.threw Exception.ArgumentErr) ∧
      write_image fuel resource image abort = ([], Outcome.threw Exception.ArgumentErr)) := by
  by_cases hne : image.cols ≠ 0 ∧ image.rows ≠ 0 ∧ image.planes ≠ 0
  · have hnot : ¬ (image.cols = 0 ∨ image.rows = 0 ∨ image.planes = 0) := by
      rintro (h | h | h)
      · exact hne.1 h
      · exact hne.2.1 h
      · exact hne.2.2 h
    refine ⟨⟨?_, fun h => absurd h hnot⟩, ⟨?_, fun h => absurd h hnot⟩, fun h => absurd h hnot⟩
    · intro h
      exfalso
      rw [block_write_image_of_nonempty fuel resource image abort hne] at h
      split at h
      · simp at h
      · split at h <;> simp at h
    · intro h
      exfalso
      rw [write_image_of_nonempty fuel resource image abort hne] at h
      split at h
      · rename_i r hr
        rcases write_image.rows_loop_error _ _ _ _ _ _ _ _ _ r hr with h1 | h1 <;>
          rw [h1] at h <;> simp at h
      · simp at h
  · have hempty : image.cols = 0 ∨ image.rows = 0 ∨ image.planes = 0 := by
      by_contra hcon
      push_neg at hcon
      exact hne hcon
    have h1 := block_write_image_of_empty fuel resource image abort hne
    have h2 := write_image_of_empty fuel resource image abort hne
    exact ⟨⟨fun _ => hempty, fun _ => by rw [h1]⟩, ⟨fun _ => hempty, fun _ => by rw [h2]⟩,
      fun _ => ⟨h1, h2⟩⟩

/-! ## C9: abort before the first block -/

/-- C9. For every non-empty image and every resource, if `abort_requested()`
is true at the first query, `block_write_image` fails with `Aborted` after
exactly two calls on its collaborators, `report_progress(0)` and the abort
query: one progress value is reported, no rasterize task is submitted and
the resource is not written. -/
theorem abort_before_first_block (fuel : Nat) (resource : ImageResource) (image : ImageShape)
    (abort : Nat → Bool)
    (hne : image.cols ≠ 0 ∧ image.rows ≠ 0 ∧ image.planes ≠ 0) (habort : abort 0 = true) :
    block_write_image fuel resource image abort =
      ([Event.report_progress 0 1, Event.abort_requested true],
        Outcome.threw Exception.Aborted) ∧
    progress (block_write_image fuel resource image abort).1 = [(0, 1)] ∧
    submitted (block_write_image fuel resource image abort).1 = [] ∧
    written (block_write_image fuel resource image abort).1 = [] := by
  have h : block_write_image fuel resource image abort =
      ([Event.report_progress 0 1, Event.abort_requested true],
        Outcome.threw Exception.Aborted) := by
    rw [block_write_image_of_nonempty fuel resource image abort hne, habort]
    rfl
  rw [h]
  exact ⟨rfl, rfl, rfl, rfl⟩

/-- C9 at a 25 x 25 image and resource with 10 x 10 blocks. -/
theorem abort_before_first_block_witness :
    block_write_image 30 ⟨25, 25, ⟨10, 10⟩⟩ ⟨25, 25, 1⟩ (fun _ => true) =
      ([Event.report_progress 0 1, Event.abort_requested true],
        Outcome.threw Exception.Aborted) ∧
    progress (block_write_image 30 ⟨25, 25, ⟨10, 10⟩⟩ ⟨25, 25, 1⟩ (fun _ => true)).1 =
      [(0, 1)] ∧
    submitted (block_write_image 30 ⟨25, 25, ⟨10, 10⟩⟩ ⟨25, 25, 1⟩ (fun _ => true)).1 = [] ∧
    written (block_write_image 30 ⟨25, 25, ⟨10, 10⟩⟩ ⟨25, 25, 1⟩ (fun _ => true)).1 = [] :=
  abort_before_first_block 30 ⟨25, 25, ⟨10, 10⟩⟩ ⟨25, 25, 1⟩ (fun _ => true) (by decide) rfl

/-! ## C10: a block size of zero -/

theorem block_write_image.cols_loop_stuck (resource : ImageResource)
    (block_size : Vector2i) (total : Int) (j i : Int)
    (hx : block_size.x = 0) (hi : i < resource.cols) :
    ∀ (fuel : Nat) (trace : List Event),
      block_write_image.cols_loop fuel resource block_size total j i trace = none := by
  intro fuel
  induction fuel with
  | zero => intro trace; rfl
  | succ fuel ih =>
    intro trace
    simp only [block_write_image.cols_loop, hi, if_true, hx, add_zero]
    exact ih _

theorem block_write_image.rows_loop_stuck (resource : ImageResource)
    (block_size : Vector2i) (total : Int) (hx : block_size.x = 0)
    (hW : 0 < resource.cols) (hH : 0 < resource.rows) (fuel inner : Nat) (trace : List Event) :
    block_write_image.rows_loop fuel inner resource block_size total 0 trace = none := by
  cases fuel with
  | zero => rfl
  | succ fuel =>
    simp only [block_write_image.rows_loop, hH, if_true,
      block_write_image.cols_loop_stuck resource block_size total 0 0 hx hW inner trace]

theorem write_image.cols_loop_zero_step (resource : ImageResource)
    (block_size : Vector2i) (total : Int) (abort : Nat → Bool) (j i : Int)
    (hx : block_size.x = 0) (hi : i < resource.cols) (hab : ∀ n, abort n = false) :
    ∀ (fuel : Nat) (trace : List Event) (q : Nat),
      write_image.cols_loop fuel resource block_size total abort j i trace q =
        .error (trace ++ (List.range fuel).flatMap
          (fun _ => write_image.body resource block_size total i j), Outcome.out_of_fuel) := by
  intro fuel
  induction fuel with
  | zero => intro trace q; simp [write_image.cols_loop]
  | succ fuel ih =>
    intro trace q
    simp only [write_image.cols_loop, hi, if_true, hab q, Bool.false_eq_true, if_false, hx,
      add_zero]
    rw [ih]
    have hr : List.range (fuel + 1) = 0 :: (List.range fuel).map Nat.succ := List.range_succ_eq_map fuel
    rw [hr, List.flatMap_cons, List.flatMap_map]
    simp only [write_image.body, hx, List.append_assoc]

/-- C10 at the failing input: a non-empty 25 x 25 image, a resource of 25 x 25
with block size 0 x 10, no abort request.  Neither driver raises a usage
error.  Lines 251 and 295 divide by `block_size.x() = 0`, which is undefined
in the source language and is given the quotient 0 here; the quotients are
only handed to the collaborators and no loop test reads them.  The loops are
entered with the step `i += 0` and never end: for every fuel the run of
`block_write_image` and of `write_image` is still in the inner loop when the
fuel is used up, and `write_image` has by then written the box
`[0,0) x [0,10)` once per loop test.  When the abort is requested at the
first query, `block_write_image` leaves on line 240, before the block size is
read, with `Aborted` and not with a usage error. -/
theorem zero_block_size_never_returns (fuel : Nat) :
    (block_write_image fuel ⟨25, 25, ⟨0, 10⟩⟩ ⟨25, 25, 1⟩ (fun _ => false)).2 =
      Outcome.out_of_fuel ∧
    block_write_image.blocks fuel ⟨25, 25, ⟨0, 10⟩⟩ = none ∧
    (write_image fuel ⟨25, 25, ⟨0, 10⟩⟩ ⟨25, 25, 1⟩ (fun _ => false)).2 =
      Outcome.out_of_fuel ∧
    written (write_image fuel ⟨25, 25, ⟨0, 10⟩⟩ ⟨25, 25, 1⟩ (fun _ => false)).1 =
      List.replicate fuel ⟨⟨0, 0⟩, ⟨0, 10⟩⟩ ∧
    (block_write_image fuel ⟨25, 25, ⟨0, 10⟩⟩ ⟨25, 25, 1⟩ (fun _ => false)).2 ≠
      Outcome.threw Exception.ArgumentErr ∧
    (write_image fuel ⟨25, 25, ⟨0, 10⟩⟩ ⟨25, 25, 1⟩ (fun _ => false)).2 ≠
      Outcome.threw Exception.ArgumentErr ∧
    block_write_image fuel ⟨25, 25, ⟨0, 10⟩⟩ ⟨25, 25, 1⟩ (fun _ => true) =
      ([Event.report_progress 0 1, Event.abort_requested true],
        Outcome.threw Exception.Aborted) := by
  have ha : block_write_image fuel ⟨25, 25, ⟨0, 10⟩⟩ ⟨25, 25, 1⟩ (fun _ => true) =
      ([Event.report_progress 0 1, Event.abort_requested true],
        Outcome.threw Exception.Aborted) := by
    rw [block_write_image_of_nonempty fuel _ _ _ (by decide)]
    simp only [if_true]
  have hb : block_write_image fuel ⟨25, 25, ⟨0, 10⟩⟩ ⟨25, 25, 1⟩ (fun _ => false) =
      ([Event.report_progress 0 1, Event.abort_requested false], Outcome.out_of_fuel) := by
    rw [block_write_image_of_nonempty fuel _ _ _ (by decide)]
    simp only [Bool.false_eq_true, if_false]
    rw [block_write_image.rows_loop_stuck _ _ _ rfl (by decide) (by decide)]
  have hblocks : block_write_image.blocks fuel ⟨25, 25, ⟨0, 10⟩⟩ = none := by
    unfold block_write_image.blocks
    rw [block_write_image.rows_loop_stuck _ _ _ rfl (by decide) (by decide)]
    rfl
  have hw : write_image fuel ⟨25, 25, ⟨0, 10⟩⟩ ⟨25, 25, 1⟩ (fun _ => false) =
      ([Event.report_progress 0 1] ++ (List.range fuel).flatMap
        (fun _ => write_image.body ⟨25, 25, ⟨0, 10⟩⟩ ⟨0, 10⟩
          (total_blocks ⟨25, 25, ⟨0, 10⟩⟩ ⟨0, 10⟩) 0 0), Outcome.out_of_fuel) := by
    rw [write_image_of_nonempty fuel _ _ _ (by decide)]
    cases fuel with
    | zero => simp [write_image.rows_loop]
    | succ f =>
      have hlt : ((0 : Int) < (⟨25, 25, ⟨0, 10⟩⟩ : ImageResource).rows) := by decide
      simp only [write_image.rows_loop, hlt, if_true]
      rw [write_image.cols_loop_zero_step _ _ _ _ 0 0 rfl (by decide) (fun _ => rfl)]
  refine ⟨by rw [hb], hblocks, by rw [hw], ?_, by rw [hb]; simp, by rw [hw]; simp, ha⟩
  rw [hw]
  clear ha hb hblocks hw
  unfold written
  rw [List.filterMap_append]
  induction fuel with
  | zero => rfl
  | succ f ih =>
    rw [List.range_succ, List.flatMap_append, List.filterMap_append, List.replicate_succ',
      ← List.append_assoc, ih]
    rfl

/-! ## The trace of `write_image` -/

theorem write_image.cols_loop_ok (resource : ImageResource) (block_size : Vector2i)
    (total : Int) (abort : Nat → Bool) (j : Int)
    (hW : 1 ≤ resource.cols) (hx : 1 ≤ block_size.x) :
    ∀ (n c fuel : Nat) (trace : List Event) (q : Nat),
      c + n = num_cols resource block_size → n < fuel →
      (∀ i, i < n → abort (q + i) = false) →
      write_image.cols_loop fuel resource block_size total abort j (c * block_size.x) trace q =
        .ok (trace ++ (List.range' c n).flatMap
          (fun (c : Nat) =>
            write_image.body resource block_size total ((c : Int) * block_size.x) j),
          q + n) := by
  intro n
  induction n with
  | zero =>
    intro c fuel trace q hc hf _
    obtain ⟨f, rfl⟩ : ∃ f, fuel = f + 1 := ⟨fuel - 1, by omega⟩
    have : ¬ ((c : Int) * block_size.x < resource.cols) := by
      rw [mul_lt_iff_lt_count _ _ hW hx]
      unfold num_cols at hc
      omega
    simp [write_image.cols_loop, this]
  | succ n ih =>
    intro c fuel trace q hc hf hab
    obtain ⟨f, rfl⟩ : ∃ f, fuel = f + 1 := ⟨fuel - 1, by omega⟩
    have hlt : ((c : Int) * block_size.x < resource.cols) := by
      rw [mul_lt_iff_lt_count _ _ hW hx]
      unfold num_cols at hc
      omega
    have hnext : (c : Int) * block_size.x + block_size.x =
        ((c + 1 : Nat) : Int) * block_size.x := by
      push_cast; ring
    have h0 : abort q = false := by simpa using hab 0 (by omega)
    simp only [write_image.cols_loop, hlt, if_true, h0, Bool.false_eq_true, if_false]
    rw [hnext, ih (c + 1) f _ (q + 1) (by omega) (by omega)
      (fun i hi => by have := hab (i + 1) (by omega); rwa [show q + 1 + i = q + (i + 1) by omega])]
    simp only [List.range'_succ, List.flatMap_cons, write_image.body, List.append_assoc]
    congr 2
    omega

theorem write_image.cols_loop_abort (resource : ImageResource) (block_size : Vector2i)
    (total : Int) (abort : Nat → Bool) (j : Int)
    (hW : 1 ≤ resource.cols) (hx : 1 ≤ block_size.x) :
    ∀ (m c fuel : Nat) (trace : List Event) (q : Nat),
      c + m < num_cols resource block_size → m < fuel →
      (∀ i, i < m → abort (q + i) = false) → abort (q + m) = true →
      write_image.cols_loop fuel resource block_size total abort j (c * block_size.x) trace q =
        .error (trace ++ (List.range' c m).flatMap
          (fun (c : Nat) =>
            write_image.body resource block_size total ((c : Int) * block_size.x) j) ++
          [Event.abort_requested true], Outcome.threw Exception.Aborted) := by
  intro m
  induction m with
  | zero =>
    intro c fuel trace q hc hf _ hq
    obtain ⟨f, rfl⟩ : ∃ f, fuel = f + 1 := ⟨fuel - 1, by omega⟩
    have hlt : ((c : Int) * block_size.x < resource.cols) := by
      rw [mul_lt_iff_lt_count _ _ hW hx]
      unfold num_cols at hc
      omega
    simp only [Nat.add_zero] at hq
    simp [write_image.cols_loop, hlt, hq]
  | succ m ih =>
    intro c fuel trace q hc hf hab hq
    obtain ⟨f, rfl⟩ : ∃ f, fuel = f + 1 := ⟨fuel - 1, by omega⟩
    have hlt : ((c : Int) * block_size.x < resource.cols) := by
      rw [mul_lt_iff_lt_count _ _ hW hx]
      unfold num_cols at hc
      omega
    have hnext : (c : Int) * block_size.x + block_size.x =
        ((c + 1 : Nat) : Int) * block_size.x := by
      push_cast; ring
    have h0 : abort q = false := by simpa using hab 0 (by omega)
    simp only [write_image.cols_loop, hlt, if_true, h0, Bool.false_eq_true, if_false]
    rw [hnext, ih (c + 1) f _ (q + 1) (by omega) (by omega)
      (fun i hi => by have := hab (i + 1) (by omega); rwa [show q + 1 + i = q + (i + 1) by omega])
      (by rwa [show q + 1 + m = q + (m + 1) by omega])]
    simp only [List.range'_succ, List.flatMap_cons, write_image.body, List.append_assoc]

theorem write_image.rows_loop_ok (resource : ImageResource) (block_size : Vector2i)
    (total : Int) (abort : Nat → Bool)
    (hW : 1 ≤ resource.cols) (hH : 1 ≤ resource.rows)
    (hx : 1 ≤ block_size.x) (hy : 1 ≤ block_size.y) :
    ∀ (n r fuel inner : Nat) (trace : List Event) (q : Nat),
      r + n = num_rows resource block_size → n < fuel →
      num_cols resource block_size < inner →
      (∀ i, i < n * num_cols resource block_size → abort (q + i) = false) →
      write_image.rows_loop fuel inner resource block_size total abort (r * block_size.y)
          trace q =
        .ok (trace ++ (List.range' r n).flatMap (write_image.row_events resource block_size total),
          q + n * num_cols resource block_size) := by
  intro n
  induction n with
  | zero =>
    intro r fuel inner trace q hr hf _ _
    obtain ⟨f, rfl⟩ : ∃ f, fuel = f + 1 := ⟨fuel - 1, by omega⟩
    have : ¬ ((r : Int) * block_size.y < resource.rows) := by
      rw [mul_lt_iff_lt_count _ _ hH hy]
      unfold num_rows at hr
      omega
    simp [write_image.rows_loop, this]
  | succ n ih =>
    intro r fuel inner trace q hr hf hc hab
    obtain ⟨f, rfl⟩ : ∃ f, fuel = f + 1 := ⟨fuel - 1, by omega⟩
    have hlt : ((r : Int) * block_size.y < resource.rows) := by
      rw [mul_lt_iff_lt_count _ _ hH hy]
      unfold num_rows at hr
      omega
    have hnext : (r : Int) * block_size.y + block_size.y =
        ((r + 1 : Nat) : Int) * block_size.y := by
      push_cast; ring
    have hmul : (n + 1) * num_cols resource block_size =
        num_cols resource block_size + n * num_cols resource block_size := by ring
    have hcols := write_image.cols_loop_ok resource block_size total abort (r * block_size.y)
      hW hx (num_cols resource block_size) 0 inner trace q (by omega) (by omega)
      (fun i hi => hab i (by omega))
    simp only [Nat.cast_zero, zero_mul] at hcols
    simp only [write_image.rows_loop, hlt, if_true, hcols]
    rw [hnext, ih (r + 1) f inner _ _ (by omega) (by omega) hc
      (fun i hi => by
        have := hab (num_cols resource block_size + i) (by omega)
        rwa [show q + num_cols resource block_size + i =
          q + (num_cols resource block_size + i) by omega])]
    simp only [List.range'_succ, List.flatMap_cons, write_image.row_events, List.append_assoc,
      List.range_eq_range']
    congr 2
    omega

theorem write_image.rows_loop_abort (resource : ImageResource) (block_size : Vector2i)
    (total : Int) (abort : Nat → Bool)
    (hW : 1 ≤ resource.cols) (hH : 1 ≤ resource.rows)
    (hx : 1 ≤ block_size.x) (hy : 1 ≤ block_size.y) :
    ∀ (a r fuel inner : Nat) (trace : List Event) (q b : Nat),
      r + a < num_rows resource block_size → b < num_cols resource block_size →
      a < fuel → num_cols resource block_size < inner →
      (∀ i, i < a * num_cols resource block_size + b → abort (q + i) = false) →
      abort (q + (a * num_cols resource block_size + b)) = true →
      write_image.rows_loop fuel inner resource block_size total abort (r * block_size.y)
          trace q =
        .error (trace ++
          (List.range' r a).flatMap (write_image.row_events resource block_size total) ++
          (List.range b).flatMap
            (fun (c : Nat) =>
              write_image.body resource block_size total ((c : Int) * block_size.x)
                (((r + a : Nat) : Int) * block_size.y)) ++
          [Event.abort_requested true], Outcome.threw Exception.Aborted) := by
  intro a
  induction a with
  | zero =>
    intro r fuel inner trace q b hr hb hf hc hab hq
    obtain ⟨f, rfl⟩ : ∃ f, fuel = f + 1 := ⟨fuel - 1, by omega⟩
    have hlt : ((r : Int) * block_size.y < resource.rows) := by
      rw [mul_lt_iff_lt_count _ _ hH hy]
      unfold num_rows at hr
      omega
    simp only [Nat.zero_mul, Nat.zero_add] at hab hq
    have hcols := write_image.cols_loop_abort resource block_size total abort (r * block_size.y)
      hW hx b 0 inner trace q (by omega) (by omega) hab hq
    simp only [Nat.cast_zero, zero_mul] at hcols
    simp only [write_image.rows_loop, hlt, if_true, hcols]
    simp [List.range_eq_range']
  | succ a ih =>
    intro r fuel inner trace q b hr hb hf hc hab hq
    obtain ⟨f, rfl⟩ : ∃ f, fuel = f + 1 := ⟨fuel - 1, by omega⟩
    have hlt : ((r : Int) * block_size.y < resource.rows) := by
      rw [mul_lt_iff_lt_count _ _ hH hy]
      unfold num_rows at hr
      omega
    have hnext : (r : Int) * block_size.y + block_size.y =
        ((r + 1 : Nat) : Int) * block_size.y := by
      push_cast; ring
    have hmul : (a + 1) * num_cols resource block_size =
        num_cols resource block_size + a * num_cols resource block_size := by ring
    have hcols := write_image.cols_loop_ok resource block_size total abort (r * block_size.y)
      hW hx (num_cols resource block_size) 0 inner trace q (by omega) (by omega)
      (fun i hi => hab i (by omega))
    simp only [Nat.cast_zero, zero_mul] at hcols
    simp only [write_image.rows_loop, hlt, if_true, hcols]
    rw [hnext, ih (r + 1) f inner _ _ b (by omega) hb (by omega) hc
      (fun i hi => by
        have := hab (num_cols resource block_size + i) (by omega)
        rwa [show q + num_cols resource block_size + i =
          q + (num_cols resource block_size + i) by omega])
      (by rwa [show q + num_cols resource block_size + (a * num_cols resource block_size + b) =
          q + ((a + 1) * num_cols resource block_size + b) by omega])]
    simp only [List.range'_succ, List.flatMap_cons, write_image.row_events, List.append_assoc,
      List.range_eq_range']
    rw [show r + 1 + a = r + (a + 1) by omega]

theorem flatMap_range_flatMap_range {α : Type} (f : Nat → Nat → List α) (m n : Nat) :
    (List.range m).flatMap (fun r => (List.range n).flatMap (f r)) =
      (List.range (m * n)).flatMap (fun k => f (k / n) (k % n)) := by
  induction m with
  | zero => simp
  | succ m ih =>
    rw [List.range_succ, List.flatMap_append, ih, Nat.succ_mul, List.range_add,
      List.flatMap_append]
    congr 1
    simp only [List.flatMap_cons, List.flatMap_nil, List.append_nil, List.flatMap_map]
    apply List.flatMap_congr
    intro x hx
    have hx' : x < n := List.mem_range.mp hx
    have hn : 0 < n := by omega
    rw [Nat.mul_comm m n, Nat.mul_add_div hn, Nat.mul_add_mod, Nat.div_eq_of_lt hx',
      Nat.mod_eq_of_lt hx']
    simp

theorem flatMap_range_add_mul {α : Type} (g : Nat → List α) (a n b : Nat) :
    (List.range (a * n + b)).flatMap g =
      (List.range (a * n)).flatMap g ++ (List.range b).flatMap (fun c => g (a * n + c)) := by
  rw [List.range_add, List.flatMap_append, List.flatMap_map]

/-- The calls for the first `a` block rows and the first `b` blocks of the
next row are the calls for the first `a * num_cols + b` blocks. -/
theorem write_image.events_by_block (resource : ImageResource) (a b : Nat)
    (hb : b ≤ num_cols resource resource.block_size) :
    (List.range a).flatMap (write_image.row_events resource resource.block_size
        (total_blocks resource resource.block_size)) ++
      (List.range b).flatMap
        (fun (c : Nat) =>
          write_image.body resource resource.block_size
            (total_blocks resource resource.block_size) ((c : Int) * resource.block_size.x)
            ((a : Int) * resource.block_size.y)) =
    (List.range (a * num_cols resource resource.block_size + b)).flatMap
      (write_image.block_events resource) := by
  rw [flatMap_range_add_mul]
  congr 1
  · have h := flatMap_range_flatMap_range
      (fun (r c : Nat) => write_image.body resource resource.block_size
        (total_blocks resource resource.block_size) ((c : Int) * resource.block_size.x)
        ((r : Int) * resource.block_size.y)) a (num_cols resource resource.block_size)
    unfold write_image.row_events write_image.block_events
    exact h
  · apply List.flatMap_congr
    intro c hc
    have hc' : c < num_cols resource resource.block_size :=
      lt_of_lt_of_le (List.mem_range.mp hc) hb
    have hpos : 0 < num_cols resource resource.block_size := by omega
    unfold write_image.block_events
    rw [Nat.mul_comm a, Nat.mul_add_mod, Nat.mul_add_div hpos, Nat.mod_eq_of_lt hc',
      Nat.div_eq_of_lt hc']
    simp

/-- The run of `write_image` that is aborted at the check before block `k`. -/
theorem write_image_trace_aborted (fuel : Nat) (resource : ImageResource) (image : ImageShape)
    (abort : Nat → Bool) (hne : image.cols ≠ 0 ∧ image.rows ≠ 0 ∧ image.planes ≠ 0)
    (hW : 1 ≤ resource.cols) (hH : 1 ≤ resource.rows)
    (hx : 1 ≤ resource.block_size.x) (hy : 1 ≤ resource.block_size.y)
    (hfr : resource.rows < fuel) (hfc : resource.cols < fuel) (k : Nat)
    (hk : k < num_rows resource resource.block_size * num_cols resource resource.block_size)
    (hab : ∀ i, i < k → abort i = false) (hq : abort k = true) :
    write_image fuel resource image abort =
      ([Event.report_progress 0 1] ++
        (List.range k).flatMap (write_image.block_events resource) ++
        [Event.abort_requested true], Outcome.threw Exception.Aborted) := by
  obtain ⟨hb, ha⟩ := grid_position resource k hk
  have hdm : k / num_cols resource resource.block_size *
      num_cols resource resource.block_size + k % num_cols resource resource.block_size = k :=
    Nat.div_add_mod' k _
  have h1 := num_rows_le resource hH hy
  have h2 := num_cols_le resource hW hx
  have hrun := write_image.rows_loop_abort resource resource.block_size
    (total_blocks resource resource.block_size) abort hW hH hx hy
    (k / num_cols resource resource.block_size) 0 fuel fuel [Event.report_progress 0 1] 0
    (k % num_cols resource resource.block_size) (by omega) hb (by omega) (by omega)
    (fun i hi => by rw [Nat.zero_add]; exact hab i (by omega))
    (by rw [Nat.zero_add, hdm]; exact hq)
  simp only [Nat.cast_zero, zero_mul, Nat.zero_add, ← List.range_eq_range'] at hrun
  rw [write_image_of_nonempty fuel resource image abort hne, hrun]
  simp only [List.append_assoc]
  rw [← List.append_assoc ((List.range (k / num_cols resource resource.block_size)).flatMap _),
    write_image.events_by_block resource _ _ (le_of_lt hb), hdm]

/-- The run of `write_image` when no abort is requested. -/
theorem write_image_trace_finished (fuel : Nat) (resource : ImageResource) (image : ImageShape)
    (abort : Nat → Bool) (hne : image.cols ≠ 0 ∧ image.rows ≠ 0 ∧ image.planes ≠ 0)
    (hW : 1 ≤ resource.cols) (hH : 1 ≤ resource.rows)
    (hx : 1 ≤ resource.block_size.x) (hy : 1 ≤ resource.block_size.y)
    (hfr : resource.rows < fuel) (hfc : resource.cols < fuel)
    (hab : ∀ i, i < num_rows resource resource.block_size *
      num_cols resource resource.block_size → abort i = false) :
    write_image fuel resource image abort =
      ([Event.report_progress 0 1] ++
        (List.range (num_rows resource resource.block_size *
          num_cols resource resource.block_size)).flatMap (write_image.block_events resource) ++
        [Event.report_finished], Outcome.returned) := by
  have h1 := num_rows_le resource hH hy
  have h2 := num_cols_le resource hW hx
  have hrun := write_image.rows_loop_ok resource resource.block_size
    (total_blocks resource resource.block_size) abort hW hH hx hy
    (num_rows resource resource.block_size) 0 fuel fuel [Event.report_progress 0 1] 0
    (by omega) (by omega) (by omega)
    (fun i hi => by rw [Nat.zero_add]; exact hab i hi)
  simp only [Nat.cast_zero, zero_mul, Nat.zero_add, ← List.range_eq_range'] at hrun
  rw [write_image_of_nonempty fuel resource image abort hne, hrun]
  have hev := write_image.events_by_block resource (num_rows resource resource.block_size) 0
    (Nat.zero_le _)
  simp only [List.range_zero, List.flatMap_nil, List.append_nil, Nat.add_zero] at hev
  simp only [hev]

/-- The numerator of the progress value computed before the `k`-th block is
`k`. -/
theorem progress_numerator_eq (resource : ImageResource) (hW : 1 ≤ resource.cols)
    (hx : 1 ≤ resource.block_size.x) (hy : 1 ≤ resource.block_size.y) (k : Nat) :
    (((k / num_cols resource resource.block_size : Nat) : Int) *
        resource.block_size.y).tdiv resource.block_size.y *
      ((resource.cols - 1).tdiv resource.block_size.x + 1) +
    (((k % num_cols resource resource.block_size : Nat) : Int) *
        resource.block_size.x).tdiv resource.block_size.x = (k : Int) := by
  rw [Int.tdiv_eq_ediv (Int.mul_nonneg (Int.ofNat_nonneg _) (by omega)) (by omega),
    Int.tdiv_eq_ediv (Int.mul_nonneg (Int.ofNat_nonneg _) (by omega)) (by omega),
    Int.mul_ediv_cancel _ (by omega), Int.mul_ediv_cancel _ (by omega),
    Int.tdiv_eq_ediv (by omega) (by omega), ← num_cols_cast resource hW hx]
  have := Nat.div_add_mod' k (num_cols resource resource.block_size)
  exact_mod_cast this

/-- The calls made for the `k`-th block: the abort query, the progress value
`k / N` and the write at the `k`-th box of the grid. -/
theorem write_image.block_events_eq (resource : ImageResource) (hW : 1 ≤ resource.cols)
    (hH : 1 ≤ resource.rows) (hx : 1 ≤ resource.block_size.x) (hy : 1 ≤ resource.block_size.y)
    (k : Nat) :
    write_image.block_events resource k =
      [Event.abort_requested false,
       Event.report_progress (k : Int)
        ((num_rows resource resource.block_size * num_cols resource resource.block_size : Nat) :
          Int),
       Event.write (grid_block resource k).bbox] := by
  unfold write_image.block_events write_image.body
  rw [progress_numerator_eq resource hW hx hy k, total_blocks_eq_count resource hW hH hx hy]
  rfl

theorem written_block_events (resource : ImageResource) (n : Nat) :
    written ((List.range n).flatMap (write_image.block_events resource)) =
      (List.range n).map (fun k => (grid_block resource k).bbox) := by
  unfold written
  induction n with
  | zero => rfl
  | succ n ih =>
    rw [List.range_succ, List.flatMap_append, List.filterMap_append, ih, List.map_append]
    rfl

theorem progress_block_events (resource : ImageResource) (hW : 1 ≤ resource.cols)
    (hH : 1 ≤ resource.rows) (hx : 1 ≤ resource.block_size.x) (hy : 1 ≤ resource.block_size.y)
    (n : Nat) :
    progress ((List.range n).flatMap (write_image.block_events resource)) =
      (List.range n).map (fun (k : Nat) => ((k : Int),
        ((num_rows resource resource.block_size *
          num_cols resource resource.block_size : Nat) : Int))) := by
  unfold progress
  induction n with
  | zero => rfl
  | succ n ih =>
    rw [List.range_succ, List.flatMap_append, List.filterMap_append, ih, List.map_append]
    simp only [List.flatMap_cons, List.flatMap_nil, List.append_nil, List.map_cons, List.map_nil,
      write_image.block_events_eq resource hW hH hx hy]
    rfl

/-! ## C11: `write_image` and an abort request -/

/-- C11, counterexample. A 25 x 25 image and resource with 10 x 10 blocks, so
`N = 9`, and `k = 9`: `abort_requested()` answers `false` to the queries 0..8
and would answer `true` to the query 9.  `write_image` makes only the nine
queries before the blocks 0..8, writes the nine blocks, reports finished and
returns; it does not fail with `Aborted`. -/
theorem write_image_returns_when_abort_follows_last_block :
    total_blocks ⟨25, 25, ⟨10, 10⟩⟩ ⟨10, 10⟩ = 9 ∧
    (∀ i, i < 9 → (fun n => decide (n = 9)) i = false) ∧
    (fun n => decide (n = 9)) 9 = true ∧
    (write_image 30 ⟨25, 25, ⟨10, 10⟩⟩ ⟨25, 25, 1⟩ (fun n => decide (n = 9))).2 =
      Outcome.returned ∧
    (write_image 30 ⟨25, 25, ⟨10, 10⟩⟩ ⟨25, 25, 1⟩ (fun n => decide (n = 9))).2 ≠
      Outcome.threw Exception.Aborted ∧
    (written (write_image 30 ⟨25, 25, ⟨10, 10⟩⟩ ⟨25, 25, 1⟩
      (fun n => decide (n = 9))).1).length = 9 ∧
    (write_image 30 ⟨25, 25, ⟨10, 10⟩⟩ ⟨25, 25, 1⟩ (fun n => decide (n = 9))).1.getLast? =
      some Event.report_finished := by
  decide

/-- C11, amended. For every non-empty image and every resource with `W, H >= 1`
and block size `Bx, By >= 1`, with `N` the number of blocks (the value of
`total_num_blocks`) and enough fuel: for every `k` with `0 <= k < N`, if
`abort_requested()` is `false` at the checks before the blocks `0..k-1` and
`true` at the check before block `k`, `write_image` makes, after
`report_progress(0)`, the calls of the blocks `0..k-1` in row-major order,
each an abort query, a progress report and one write at the clipped box of
the block, then the abort query answered `true`, and fails with `Aborted`:
exactly `k` writes, none for block `k`.  If `abort_requested()` is `false` at
all `N` checks it writes all `N` blocks in that order, reports finished and
returns. -/
theorem write_image_abort_at_block (fuel : Nat) (resource : ImageResource)
    (image : ImageShape) (abort : Nat → Bool)
    (hne : image.cols ≠ 0 ∧ image.rows ≠ 0 ∧ image.planes ≠ 0)
    (hW : 1 ≤ resource.cols) (hH : 1 ≤ resource.rows)
    (hx : 1 ≤ resource.block_size.x) (hy : 1 ≤ resource.block_size.y)
    (hfr : resource.rows < fuel) (hfc : resource.cols < fuel) :
    total_blocks resource resource.block_size =
      ((num_rows resource resource.block_size * num_cols resource resource.block_size : Nat) :
        Int) ∧
    (∀ m : Nat, write_image.block_events resource m =
      [Event.abort_requested false,
       Event.report_progress (m : Int) (total_blocks resource resource.block_size),
       Event.write
        ⟨⟨((m % num_cols resource resource.block_size : Nat) : Int) * resource.block_size.x,
          ((m / num_cols resource resource.block_size : Nat) : Int) * resource.block_size.y⟩,
         ⟨min (((m % num_cols resource resource.block_size : Nat) : Int) *
              resource.block_size.x + resource.block_size.x) resource.cols,
          min (((m / num_cols resource resource.block_size : Nat) : Int) *
              resource.block_size.y + resource.block_size.y) resource.rows⟩⟩]) ∧
    (∀ k : Nat,
      k < num_rows resource resource.block_size * num_cols resource resource.block_size →
      (∀ i, i < k → abort i = false) → abort k = true →
      write_image fuel resource image abort =
        ([Event.report_progress 0 1] ++
          (List.range k).flatMap (write_image.block_events resource) ++
          [Event.abort_requested true], Outcome.threw Exception.Aborted) ∧
      written (write_image fuel resource image abort).1 =
        (List.range k).map (fun m => (grid_block resource m).bbox) ∧
      (written (write_image fuel resource image abort).1).length = k) ∧
    ((∀ i, i < num_rows resource resource.block_size *
        num_cols resource resource.block_size → abort i = false) →
      write_image fuel resource image abort =
        ([Event.report_progress 0 1] ++
          (List.range (num_rows resource resource.block_size *
            num_cols resource resource.block_size)).flatMap
              (write_image.block_events resource) ++
          [Event.report_finished], Outcome.returned) ∧
      written (write_image fuel resource image abort).1 =
        (List.range (num_rows resource resource.block_size *
          num_cols resource resource.block_size)).map
            (fun m => (grid_block resource m).bbox)) := by
  have htot := total_blocks_eq_count resource hW hH hx hy
  refine ⟨htot, ?_, ?_, ?_⟩
  · intro m
    rw [write_image.block_events_eq resource hW hH hx hy m, htot]
    rfl
  · intro k hk hab hq
    have htrace := write_image_trace_aborted fuel resource image abort hne hW hH hx hy hfr hfc
      k hk hab hq
    have hwr : written (write_image fuel resource image abort).1 =
        (List.range k).map (fun m => (grid_block resource m).bbox) := by
      rw [htrace]
      have := written_block_events resource k
      unfold written at this ⊢
      simp only [List.filterMap_append, this]
      simp [Event.write?]
    refine ⟨htrace, hwr, ?_⟩
    rw [hwr]
    simp
  · intro hab
    have htrace := write_image_trace_finished fuel resource image abort hne hW hH hx hy hfr hfc
      hab
    refine ⟨htrace, ?_⟩
    rw [htrace]
    have := written_block_events resource
      (num_rows resource resource.block_size * num_cols resource resource.block_size)
    unfold written at this ⊢
    simp only [List.filterMap_append, this]
    simp [Event.write?]

/-- C11 amended, at a 25 x 25 image and resource with 10 x 10 blocks and an
abort request at the check before block 4: the blocks 0..3 are written, then
`write_image` fails with `Aborted`. -/
theorem write_image_abort_at_block_witness :
    ((25 : Int) ≠ 0 ∧ (25 : Int) ≠ 0 ∧ (1 : Int) ≠ 0) ∧
    (4 < num_rows ⟨25, 25, ⟨10, 10⟩⟩ ⟨10, 10⟩ * num_cols ⟨25, 25, ⟨10, 10⟩⟩ ⟨10, 10⟩) ∧
    (∀ i, i < 4 → (fun n => decide (n = 4)) i = false) ∧
    (fun n => decide (n = 4)) 4 = true ∧
    (write_image 30 ⟨25, 25, ⟨10, 10⟩⟩ ⟨25, 25, 1⟩ (fun n => decide (n = 4)) =
        ([Event.report_progress 0 1] ++
          (List.range 4).flatMap (write_image.block_events ⟨25, 25, ⟨10, 10⟩⟩) ++
          [Event.abort_requested true], Outcome.threw Exception.Aborted) ∧
      written (write_image 30 ⟨25, 25, ⟨10, 10⟩⟩ ⟨25, 25, 1⟩ (fun n => decide (n = 4))).1 =
        (List.range 4).map (fun m => (grid_block ⟨25, 25, ⟨10, 10⟩⟩ m).bbox) ∧
      (written (write_image 30 ⟨25, 25, ⟨10, 10⟩⟩ ⟨25, 25, 1⟩
        (fun n => decide (n = 4))).1).length = 4) ∧
    (List.range 4).map (fun m => (grid_block ⟨25, 25, ⟨10, 10⟩⟩ m).bbox) =
      [⟨⟨0, 0⟩, ⟨10, 10⟩⟩, ⟨⟨10, 0⟩, ⟨20, 10⟩⟩, ⟨⟨20, 0⟩, ⟨25, 10⟩⟩, ⟨⟨0, 10⟩, ⟨10, 20⟩⟩] :=
  ⟨by decide, by decide, by decide, by decide,
    (write_image_abort_at_block 30 ⟨25, 25, ⟨10, 10⟩⟩ ⟨25, 25, 1⟩ (fun n => decide (n = 4))
      (by decide) (by decide) (by decide) (by decide) (by decide) (by decide)
      (by decide)).2.2.1 4 (by decide) (by decide) (by decide),
    by decide⟩

/-! ## C13: the progress values of `write_image` -/

/-- For every answer function of `abort_requested()`, the run of `write_image`
goes through the first `m` blocks, for some `m <= N`, and ends with one more
call: the abort query answered `true`, or `report_finished` when `m = N`. -/
theorem write_image_trace_cases (fuel : Nat) (resource : ImageResource) (image : ImageShape)
    (abort : Nat → Bool) (hne : image.cols ≠ 0 ∧ image.rows ≠ 0 ∧ image.planes ≠ 0)
    (hW : 1 ≤ resource.cols) (hH : 1 ≤ resource.rows)
    (hx : 1 ≤ resource.block_size.x) (hy : 1 ≤ resource.block_size.y)
    (hfr : resource.rows < fuel) (hfc : resource.cols < fuel) :
    ∃ (m : Nat) (last : Event),
      m ≤ num_rows resource resource.block_size * num_cols resource resource.block_size ∧
      (last = Event.abort_requested true ∨ last = Event.report_finished) ∧
      ((∀ i, i < num_rows resource resource.block_size *
          num_cols resource resource.block_size → abort i = false) →
        m = num_rows resource resource.block_size * num_cols resource resource.block_size ∧
        last = Event.report_finished) ∧
      (write_image fuel resource image abort).1 =
        [Event.report_progress 0 1] ++
          (List.range m).flatMap (write_image.block_events resource) ++ [last] := by
  by_cases h : ∃ k, k < num_rows resource resource.block_size *
      num_cols resource resource.block_size ∧ abort k = true
  · obtain ⟨hk, hq⟩ := Nat.find_spec h
    have hab : ∀ i, i < Nat.find h → abort i = false := by
      intro i hi
      have := Nat.find_min h hi
      simp only [not_and, Bool.not_eq_true] at this
      exact this (lt_trans hi hk)
    refine ⟨Nat.find h, Event.abort_requested true, le_of_lt hk, Or.inl rfl, ?_, ?_⟩
    · intro hall
      rw [hall _ hk] at hq
      simp at hq
    · rw [write_image_trace_aborted fuel resource image abort hne hW hH hx hy hfr hfc
        (Nat.find h) hk hab hq]
  · have hall : ∀ i, i < num_rows resource resource.block_size *
        num_cols resource resource.block_size → abort i = false := by
      intro i hi
      by_contra hc
      simp only [Bool.not_eq_false] at hc
      exact h ⟨i, hi, hc⟩
    refine ⟨_, Event.report_finished, le_refl _, Or.inr rfl, fun _ => ⟨rfl, rfl⟩, ?_⟩
    rw [write_image_trace_finished fuel resource image abort hne hW hH hx hy hfr hfc hall]

theorem progress_fractions (N m : Nat) (hN : 0 < N) (hm : m ≤ N) :
    (((0, 1) :: (List.range m).map (fun (k : Nat) => ((k : Int), (N : Int)))).map
        (fun p => (p.1 : ℚ) / (p.2 : ℚ))).head? = some 0 ∧
    List.Pairwise (fun a b => a ≤ b)
      (((0, 1) :: (List.range m).map (fun (k : Nat) => ((k : Int), (N : Int)))).map
        (fun p => (p.1 : ℚ) / (p.2 : ℚ))) ∧
    ∀ x ∈ (((0, 1) :: (List.range m).map (fun (k : Nat) => ((k : Int), (N : Int)))).map
        (fun p => (p.1 : ℚ) / (p.2 : ℚ))), 0 ≤ x ∧ x < 1 := by
  have hNq : (0 : ℚ) < (N : ℚ) := by exact_mod_cast hN
  have hrest : ∀ x ∈ (List.range m).map (fun (k : Nat) => ((k : Int) : ℚ) / ((N : Int) : ℚ)),
      0 ≤ x ∧ x < 1 := by
    intro x hx
    obtain ⟨k, hk, rfl⟩ := List.mem_map.mp hx
    have hk' : k < N := lt_of_lt_of_le (List.mem_range.mp hk) hm
    have hkq : (k : ℚ) < (N : ℚ) := by exact_mod_cast hk'
    have hk0 : (0 : ℚ) ≤ (k : ℚ) := by exact_mod_cast Nat.zero_le k
    push_cast
    exact ⟨div_nonneg hk0 (le_of_lt hNq), (div_lt_one hNq).mpr hkq⟩
  have hmap : (((0, 1) :: (List.range m).map (fun (k : Nat) => ((k : Int), (N : Int)))).map
      (fun p : Int × Int => (p.1 : ℚ) / (p.2 : ℚ))) =
      0 :: (List.range m).map (fun (k : Nat) => ((k : Int) : ℚ) / ((N : Int) : ℚ)) := by
    simp [List.map_map, Function.comp_def]
  rw [hmap]
  refine ⟨rfl, ?_, ?_⟩
  · rw [List.pairwise_cons]
    refine ⟨fun x hx => (hrest x hx).1, ?_⟩
    rw [List.pairwise_map]
    refine (List.pairwise_lt_range m).imp ?_
    intro a b hab
    have : (a : ℚ) ≤ (b : ℚ) := by exact_mod_cast le_of_lt hab
    push_cast
    exact div_le_div_of_nonneg_right this (le_of_lt hNq)
  · intro x hx
    rcases List.mem_cons.mp hx with rfl | hx
    · exact ⟨le_refl _, by norm_num⟩
    · exact hrest x hx

/-- C13. For every resource with `W, H >= 1` and block size `Bx, By >= 1`, with
`N` the number of blocks, in every run of `write_image` on a non-empty image
with enough fuel: the denominator `total_num_blocks` is `N`; the calls made
for the `k`-th block (row-major, from 0) are the abort query, the progress
report with numerator `k` and that denominator, and the write of the block,
and exactly `k` writes precede them; the run goes through the first `m <= N`
blocks; hence, in exact arithmetic, the reported fractions are `0` followed
by `0/N, 1/N, ..., (m-1)/N`: they start at 0, are non-decreasing and all lie
in `[0, 1)`. -/
theorem write_image_progress_values (fuel : Nat) (resource : ImageResource)
    (image : ImageShape) (abort : Nat → Bool)
    (hne : image.cols ≠ 0 ∧ image.rows ≠ 0 ∧ image.planes ≠ 0)
    (hW : 1 ≤ resource.cols) (hH : 1 ≤ resource.rows)
    (hx : 1 ≤ resource.block_size.x) (hy : 1 ≤ resource.block_size.y)
    (hfr : resource.rows < fuel) (hfc : resource.cols < fuel) :
    total_blocks resource resource.block_size =
      ((num_rows resource resource.block_size * num_cols resource resource.block_size : Nat) :
        Int) ∧
    (∀ k : Nat,
      write_image.block_events resource k =
        [Event.abort_requested false,
         Event.report_progress (k : Int) (total_blocks resource resource.block_size),
         Event.write (grid_block resource k).bbox] ∧
      (written ([Event.report_progress 0 1] ++
        (List.range k).flatMap (write_image.block_events resource))).length = k) ∧
    (∃ (m : Nat) (last : Event),
      m ≤ num_rows resource resource.block_size * num_cols resource resource.block_size ∧
      (last = Event.abort_requested true ∨ last = Event.report_finished) ∧
      (write_image fuel resource image abort).1 =
        [Event.report_progress 0 1] ++
          (List.range m).flatMap (write_image.block_events resource) ++ [last] ∧
      progress (write_image fuel resource image abort).1 =
        (0, 1) :: (List.range m).map (fun (k : Nat) =>
          ((k : Int), total_blocks resource resource.block_size))) ∧
    ((progress (write_image fuel resource image abort).1).map
        (fun p => (p.1 : ℚ) / (p.2 : ℚ))).head? = some 0 ∧
    List.Pairwise (fun a b => a ≤ b)
      ((progress (write_image fuel resource image abort).1).map
        (fun p => (p.1 : ℚ) / (p.2 : ℚ))) ∧
    (∀ x ∈ (progress (write_image fuel resource image abort).1).map
        (fun p => (p.1 : ℚ) / (p.2 : ℚ)), 0 ≤ x ∧ x < 1) := by
  have htot := total_blocks_eq_count resource hW hH hx hy
  obtain ⟨m, last, hm, hlast, _, htrace⟩ :=
    write_image_trace_cases fuel resource image abort hne hW hH hx hy hfr hfc
  have hprog : progress (write_image fuel resource image abort).1 =
      (0, 1) :: (List.range m).map (fun (k : Nat) =>
        ((k : Int), ((num_rows resource resource.block_size *
          num_cols resource resource.block_size : Nat) : Int))) := by
    rw [htrace]
    have := progress_block_events resource hW hH hx hy m
    unfold progress at this ⊢
    simp only [List.filterMap_append, this]
    rcases hlast with rfl | rfl <;> simp [Event.progress?]
  have hN : 0 < num_rows resource resource.block_size *
      num_cols resource resource.block_size :=
    Nat.mul_pos (num_rows_pos resource hH hy) (num_cols_pos resource hW hx)
  obtain ⟨f1, f2, f3⟩ := progress_fractions _ m hN hm
  refine ⟨htot, ?_, ⟨m, last, hm, hlast, htrace, by rw [hprog, htot]⟩, ?_, ?_, ?_⟩
  · intro k
    refine ⟨by rw [write_image.block_events_eq resource hW hH hx hy k, htot], ?_⟩
    have := written_block_events resource k
    unfold written at this ⊢
    simp only [List.filterMap_append, this]
    simp [Event.write?]
  · rw [hprog]; exact f1
  · rw [hprog]; exact f2
  · rw [hprog]; exact f3

/-- C13 at a 25 x 25 image and resource with 10 x 10 blocks, without abort
request: the reported values are 0, then `0/9, 1/9, ..., 8/9`. -/
theorem write_image_progress_values_witness :
    progress (write_image 30 ⟨25, 25, ⟨10, 10⟩⟩ ⟨25, 25, 1⟩ (fun _ => false)).1 =
      [(0, 1), (0, 9), (1, 9), (2, 9), (3, 9), (4, 9), (5, 9), (6, 9), (7, 9), (8, 9)] ∧
    (
    total_blocks (⟨25, 25, ⟨10, 10⟩⟩ : ImageResource) (⟨25, 25, ⟨10, 10⟩⟩ : ImageResource).block_size =
      ((num_rows (⟨25, 25, ⟨10, 10⟩⟩ : ImageResource) (⟨25, 25, ⟨10, 10⟩⟩ : ImageResource).block_size * num_cols (⟨25, 25, ⟨10, 10⟩⟩ : ImageResource) (⟨25, 25, ⟨10, 10⟩⟩ : ImageResource).block_size : Nat) :
        Int) ∧
    (∀ k : Nat,
      write_image.block_events (⟨25, 25, ⟨10, 10⟩⟩ : ImageResource) k =
        [Event.abort_requested false,
         Event.report_progress (k : Int) (total_blocks (⟨25, 25, ⟨10, 10⟩⟩ : ImageResource) (⟨25, 25, ⟨10, 10⟩⟩ : ImageResource).block_size),
         Event.write (grid_block (⟨25, 25, ⟨10, 10⟩⟩ : ImageResource) k).bbox] ∧
      (written ([Event.report_progress 0 1] ++
        (List.range k).flatMap (write_image.block_events (⟨25, 25, ⟨10, 10⟩⟩ : ImageResource)))).length = k) ∧
    (∃ (m : Nat) (last : Event),
      m ≤ num_rows (⟨25, 25, ⟨10, 10⟩⟩ : ImageResource) (⟨25, 25, ⟨10, 10⟩⟩ : ImageResource).block_size * num_cols (⟨25, 25, ⟨10, 10⟩⟩ : ImageResource) (⟨25, 25, ⟨10, 10⟩⟩ : ImageResource).block_size ∧
      (last = Event.abort_requested true ∨ last = Event.report_finished) ∧
      (write_image 30 (⟨25, 25, ⟨10, 10⟩⟩ : ImageResource) ⟨25, 25, 1⟩ (fun _ => false)).1 =
        [Event.report_progress 0 1] ++
          (List.range m).flatMap (write_image.block_events (⟨25, 25, ⟨10, 10⟩⟩ : ImageResource)) ++ [last] ∧
      progress (write_image 30 (⟨25, 25, ⟨10, 10⟩⟩ : ImageResource) ⟨25, 25, 1⟩ (fun _ => false)).1 =
        (0, 1) :: (List.range m).map (fun (k : Nat) =>
          ((k : Int), total_blocks (⟨25, 25, ⟨10, 10⟩⟩ : ImageResource) (⟨25, 25, ⟨10, 10⟩⟩ : ImageResource).block_size))) ∧
    ((progress (write_image 30 (⟨25, 25, ⟨10, 10⟩⟩ : ImageResource) ⟨25, 25, 1⟩ (fun _ => false)).1).map
        (fun p => (p.1 : ℚ) / (p.2 : ℚ))).head? = some 0 ∧
    List.Pairwise (fun a b => a ≤ b)
      ((progress (write_image 30 (⟨25, 25, ⟨10, 10⟩⟩ : ImageResource) ⟨25, 25, 1⟩ (fun _ => false)).1).map
        (fun p => (p.1 : ℚ) / (p.2 : ℚ))) ∧
    (∀ x ∈ (progress (write_image 30 (⟨25, 25, ⟨10, 10⟩⟩ : ImageResource) ⟨25, 25, 1⟩ (fun _ => false)).1).map
        (fun p => (p.1 : ℚ) / (p.2 : ℚ)), 0 ≤ x ∧ x < 1)) :=
  ⟨by decide,
    write_image_progress_values 30 ⟨25, 25, ⟨10, 10⟩⟩ ⟨25, 25, 1⟩ (fun _ => false)
      (by decide) (by decide) (by decide) (by decide) (by decide) (by decide) (by decide)⟩

/-! ## C12: `enter()` and `release()` -/

theorem CountingSemaphore.applyAll_count (ops : List SemOp) :
    ∀ s : CountingSemaphore,
      (s.applyAll ops).m_count = s.m_count + (enters ops : Int) - (releases ops : Int) := by
  induction ops with
  | nil => intro s; simp [CountingSemaphore.applyAll, enters, releases]
  | cons op ops ih =>
    intro s
    have h := ih (s.apply op)
    simp only [CountingSemaphore.applyAll, List.foldl_cons] at h ⊢
    rw [h]
    cases op <;>
      simp [CountingSemaphore.apply, CountingSemaphore.set_max, CountingSemaphore.wait_finish,
        CountingSemaphore.enter, CountingSemaphore.release, enters, releases, SemOp.isEnter,
        SemOp.isRelease, List.countP_cons] <;> ring

theorem released_after_enter_take (ops : List SemOp) (h : released_after_enter ops = true)
    (n : Nat) : releases (ops.take n) ≤ enters (ops.take n) := by
  simp only [released_after_enter, List.all_eq_true, List.mem_range, decide_eq_true_eq] at h
  by_cases hn : n < ops.length + 1
  · exact h n hn
  · have e : ops.take n = ops.take ops.length := by
      rw [List.take_of_length_le (by omega), List.take_length]
    rw [e]
    exact h ops.length (by omega)

/-- C12. In every sequence of `CountingSemaphore` operations starting from a
gate with `in_flight_count = 0` (as both constructors make it) in which every
`release()` is preceded by an `enter()` of its own, after each operation
`in_flight_count` equals the number of `enter` calls minus the number of
`release` calls so far, and is `>= 0`; `enter()` adds exactly 1 and
`release()` subtracts exactly 1 whatever `max_in_flight` is, and neither
changes `max_in_flight` or `last_admitted_index`. -/
theorem count_is_enters_minus_releases (s0 : CountingSemaphore) (h0 : s0.m_count = 0)
    (ops : List SemOp) (hbal : released_after_enter ops = true) :
    (∀ n : Nat,
      (s0.applyAll (ops.take n)).m_count =
        (enters (ops.take n) : Int) - (releases (ops.take n) : Int) ∧
      0 ≤ (s0.applyAll (ops.take n)).m_count) ∧
    (∀ s : CountingSemaphore,
      s.enter.m_count = s.m_count + 1 ∧ s.enter.m_max = s.m_max ∧
      s.enter.m_last_job_index = s.m_last_job_index ∧
      s.release.m_count = s.m_count - 1 ∧ s.release.m_max = s.m_max ∧
      s.release.m_last_job_index = s.m_last_job_index) ∧
    CountingSemaphore.new.m_count = 0 ∧
    (∀ max : Int, (CountingSemaphore.ofMax max).m_count = 0) := by
  refine ⟨?_, fun s => ⟨rfl, rfl, rfl, rfl, rfl, rfl⟩, rfl, fun _ => rfl⟩
  intro n
  have hc := CountingSemaphore.applyAll_count (ops.take n) s0
  have hle := released_after_enter_take ops hbal n
  rw [h0] at hc
  constructor
  · rw [hc]; ring
  · rw [hc]
    have : (releases (ops.take n) : Int) ≤ (enters (ops.take n) : Int) := by exact_mod_cast hle
    omega

/-- C12 at the sequence `enter, wait(3), enter, release, set_max(4), release`
on a gate made by the default constructor. -/
theorem count_is_enters_minus_releases_witness :
    CountingSemaphore.new.m_count = 0 ∧
    released_after_enter [.enter, .wait 3, .enter, .release, .set_max 4, .release] = true ∧
    CountingSemaphore.new.applyAll [.enter, .wait 3, .enter, .release, .set_max 4, .release] =
      ⟨4, 0, 3⟩ ∧
    ((∀ n : Nat,
      (CountingSemaphore.new.applyAll
          (([.enter, .wait 3, .enter, .release, .set_max 4, .release] : List SemOp).take
            n)).m_count =
        (enters (([.enter, .wait 3, .enter, .release, .set_max 4, .release] : List SemOp).take
          n) : Int) -
        (releases (([.enter, .wait 3, .enter, .release, .set_max 4, .release] :
          List SemOp).take n) : Int) ∧
      0 ≤ (CountingSemaphore.new.applyAll
          (([.enter, .wait 3, .enter, .release, .set_max 4, .release] : List SemOp).take
            n)).m_count) ∧
    (∀ s : CountingSemaphore,
      s.enter.m_count = s.m_count + 1 ∧ s.enter.m_max = s.m_max ∧
      s.enter.m_last_job_index = s.m_last_job_index ∧
      s.release.m_count = s.m_count - 1 ∧ s.release.m_max = s.m_max ∧
      s.release.m_last_job_index = s.m_last_job_index) ∧
    CountingSemaphore.new.m_count = 0 ∧
    (∀ max : Int, (CountingSemaphore.ofMax max).m_count = 0)) :=
  ⟨rfl, by decide, by decide,
    count_is_enters_minus_releases CountingSemaphore.new rfl
      [.enter, .wait 3, .enter, .release, .set_max 4, .release] (by decide)⟩

end vw
